import Mathlib

/-!
Verification of the librarian catalog reconciliation engine
(`src/catalog.rs`, `src/cache.rs`, `src/resource.rs`) against its
natural-language specification.

The Rust code is shallowly embedded:

* `IndexMap` becomes an association list (`List (String × α)`) with the
  crate's semantics: `insert` replaces the value in place for an existing
  key and appends otherwise; `remove` is `swap_remove` (the removed slot
  is filled with the last binding).
* `HashSet<String>` of original checksums becomes a duplicate-free
  `List String` (insertion order; iteration order of the Rust hash set is
  unspecified, and no proved statement depends on it).
* Filesystem state is a list of top-level entries, each carrying its
  name, directory flag, modification time (seconds) and content digest.
  The SHA-1 content digest of an entry's content is carried as an opaque
  string field: the hasher is deterministic, so an unchanged entry keeps
  its digest across runs.  The byte-level structure of the hasher input
  is modelled separately for the hasher claims.
* `Rust`'s `String::partial_cmp` (byte-wise lexicographic on UTF-8, which
  orders exactly like code-point-wise lexicographic order) becomes
  `cmpStr`, a code-point-wise lexicographic comparison.
* Panics (`unwrap` on indexing, the unreachable orphan-policy arm) become
  `Except.error`; the interactive y/n prompt of the "ask" policy becomes
  an oracle `String → Bool` giving the operator's final answer per orphan.
* Stale `modified()` / `metadata()` I/O errors are not modelled: each
  entry has a definite modification time.

Definitions come first, then the supporting lemmas, then one theorem per
claim (with witnesses and counterexamples).
-/

/-! ## Generic comparator infrastructure -/

/-- Numeric value of a character (its Unicode code point). -/
def charVal (c : Char) : Nat := c.val.toNat

/-- Lexicographic strict order on character lists, comparing code points.
This is the order Rust's byte-wise `str` comparison induces, because
UTF-8 byte order agrees with code-point order. -/
def lexLtCh : List Char → List Char → Bool
  | [], [] => false
  | [], _ :: _ => true
  | _ :: _, [] => false
  | a :: as, b :: bs =>
    if charVal a < charVal b then true
    else if charVal a = charVal b then lexLtCh as bs
    else false

/-- Strict lexicographic order on strings (Rust `String::lt`). -/
def strLt (a b : String) : Bool := lexLtCh a.data b.data

/-- Build a three-way comparison out of a strict order, the way Rust's
`PartialOrd` derives `partial_cmp` for totally ordered data. -/
def cmpOfLt {α : Type} (lt : α → α → Bool) (a b : α) : Ordering :=
  if lt a b then .lt else if lt b a then .gt else .eq

/-- Comparison of strings (Rust `String::partial_cmp`). -/
def cmpStr (a b : String) : Ordering := cmpOfLt strLt a b

/-- Strict order on `Int` as a Bool. -/
def intLt (a b : Int) : Bool := decide (a < b)

/-- Comparison of integers (Rust `i32::partial_cmp`; widths are
immaterial to the ordering claims). -/
def cmpInt (a b : Int) : Ordering := cmpOfLt intLt a b

/-- Comparison of optional values: Rust's `Option<T>::partial_cmp`,
where `None` sorts before any `Some`. -/
def cmpOpt {α : Type} (cmp : α → α → Ordering) : Option α → Option α → Ordering
  | none, none => .eq
  | none, some _ => .lt
  | some _, none => .gt
  | some a, some b => cmp a b

/-- Sequencing of comparisons: the second one breaks ties of the first,
exactly as the nested `if … == Ordering::Equal` chains in the source. -/
def thenCmp {α : Type} (f g : α → α → Ordering) (a b : α) : Ordering :=
  (f a b).then (g a b)

/-- The laws a Rust-style total comparator satisfies; enough to reason
about stable sorting. `cmp a b = .eq` need not imply `a = b` (the
resource comparator ignores most metadata fields). -/
structure LawfulCmp {α : Type} (cmp : α → α → Ordering) : Prop where
  swap : ∀ a b, cmp a b = (cmp b a).swap
  lt_trans : ∀ {a b c}, cmp a b = .lt → cmp b c = .lt → cmp a c = .lt
  eq_trans : ∀ {a b c}, cmp a b = .eq → cmp b c = .eq → cmp a c = .eq
  lt_of_lt_of_eq : ∀ {a b c}, cmp a b = .lt → cmp b c = .eq → cmp a c = .lt
  lt_of_eq_of_lt : ∀ {a b c}, cmp a b = .eq → cmp b c = .lt → cmp a c = .lt

/-- The laws of a strict total order that make `cmpOfLt` lawful. -/
structure LawfulLt {α : Type} (lt : α → α → Bool) : Prop where
  asymm : ∀ {a b}, lt a b = true → lt b a = false
  trans : ∀ {a b c}, lt a b = true → lt b c = true → lt a c = true
  conn : ∀ {a b}, lt a b = false → lt b a = false → a = b

/-! ## Stable insertion sort

Rust's `sort_by` is a stable sort; for a lawful (total, transitive)
comparator the result of any stable sort is uniquely determined, so
insertion sort is a faithful model. -/

/-- Insert an element coming *later* in the original list into an
already sorted list: it skips every strictly smaller element and lands
before the first element not below it (hence after its equals). -/
def insertCmp {α : Type} (cmp : α → α → Ordering) (x : α) : List α → List α
  | [] => [x]
  | y :: ys => if cmp x y = .gt then y :: insertCmp cmp x ys else x :: y :: ys

/-- Stable insertion sort by a comparator (model of Rust `sort_by`). -/
def sortByCmp {α : Type} (cmp : α → α → Ordering) : List α → List α
  | [] => []
  | x :: xs => insertCmp cmp x (sortByCmp cmp xs)

/-! ## Association lists with `IndexMap` semantics -/

/-- Key lookup in an association list (first binding wins, as in
`IndexMap::get`). -/
def alookup {α : Type} : List (String × α) → String → Option α
  | [], _ => none
  | (k, v) :: t, key => if k = key then some v else alookup t key

/-- Keys of an association list. -/
def akeys {α : Type} (m : List (String × α)) : List String := m.map (·.1)

/-- `IndexMap::insert`: replace the value of an existing key in place,
otherwise append the new binding at the end. -/
def indexInsert {α : Type} : List (String × α) → String → α → List (String × α)
  | [], k, v => [(k, v)]
  | (k1, v1) :: t, k, v =>
    if k1 = k then (k, v) :: t else (k1, v1) :: indexInsert t k v

/-- `IndexMap::get_mut` followed by in-place mutation of the value. -/
def updateValue {α : Type} : List (String × α) → String → (α → α) → List (String × α)
  | [], _, _ => []
  | (k1, v1) :: t, k, f =>
    if k1 = k then (k1, f v1) :: t else (k1, v1) :: updateValue t k f

/-- Split a list at the first binding of a key, returning the bindings
before it, its value, and the bindings after it. -/
def splitAtKey {α : Type} : List (String × α) → String →
    Option (List (String × α) × α × List (String × α))
  | [], _ => none
  | (k1, v1) :: t, k =>
    if k1 = k then some ([], v1, t)
    else (splitAtKey t k).map (fun p => ((k1, v1) :: p.1, p.2.1, p.2.2))

/-- `IndexMap::remove` (an alias of `swap_remove`): the removed slot is
filled with the last binding of the map. -/
def swapRemoveKey {α : Type} (m : List (String × α)) (k : String) : List (String × α) :=
  match splitAtKey m k with
  | none => m
  | some (l1, _, l2) =>
    match l2.getLast? with
    | none => l1
    | some last => l1 ++ last :: l2.dropLast

/-- `HashSet::insert` on a duplicate-free list. -/
def insertSet (s : List String) (x : String) : List String :=
  if x ∈ s then s else s ++ [x]

/-- `HashSet::remove` / removing the first occurrence of a string. -/
def eraseStr : List String → String → List String
  | [], _ => []
  | a :: t, x => if a = x then t else a :: eraseStr t x

/-! ## Data model (`src/resource.rs`, `src/cache.rs`) -/

/-- `Name` (`src/resource.rs`). -/
structure PersonName where
  first : Option String
  middle : Option String
  last : Option String
deriving DecidableEq, Repr

/-- `DateTime` (`src/resource.rs`); field order matters for the derived
lexicographic `PartialOrd`. -/
structure RDateTime where
  year : Option Int
  month : Option Int
  day : Option Int
  hour : Option Int
  minute : Option Int
  second : Option Int
deriving DecidableEq, Repr

/-- `DocumentType` (`src/resource.rs`): an extension plus an optional
media type (opaque here). -/
structure DocumentType where
  extension : String
  mime : Option String
deriving DecidableEq, Repr

/-- `Resource` (`src/resource.rs`).  `url` is kept as an opaque string;
the `document_type`/`content_type` fields correspond to the `document`/
`content` names used at the construction site in `src/catalog.rs`. -/
structure Resource where
  title : String
  subtitle : Option String
  author : Option (List PersonName)
  editor : Option (List PersonName)
  date : Option RDateTime
  edition : Option String
  version : Option String
  publisher : Option String
  organization : Option String
  journal : Option String
  volume : Option String
  number : Option String
  doi : Option String
  tags : Option (List String)
  document_type : Option String
  content_type : Option String
  url : Option String
  checksum : String
  historical_checksums : List String
deriving DecidableEq, Repr

/-- `CacheFields` (`src/cache.rs`). -/
structure CacheFields where
  last_verified : Nat
  checksum : String
deriving DecidableEq, Repr

/-- The in-memory cache: filename (or digest) ↦ cache data, in insertion
order (`IndexMap<String, CacheFields>`). -/
abbrev Cache := List (String × CacheFields)

/-- `Catalog` (`src/catalog.rs`).  `content_types` values (BibTeX types)
are opaque strings. -/
structure Catalog where
  document_types : List (String × DocumentType)
  content_types : List (String × String)
  resources : List Resource
deriving DecidableEq, Repr

/-- One top-level entry of the resources directory as seen by a run:
its current filename, directory flag, modification time (seconds since
the epoch) and the SHA-1 digest of its content. -/
structure FsEntry where
  name : String
  isDir : Bool
  mtime : Nat
  digest : String
deriving DecidableEq, Repr

/-! ## Filename stem / extension (Rust `Path::file_stem` / `extension`) -/

/-- Scan a reversed character list for the first `'.'` that is not the
leading character of the original name; returns the reversed extension
and the reversed stem. -/
def revSplitDot : List Char → Option (List Char × List Char)
  | [] => none
  | c :: t =>
    if c = '.' then (if t = [] then none else some ([], t))
    else (revSplitDot t).map (fun p => (c :: p.1, p.2))

/-- Split a file name into stem and optional extension, with Rust's
semantics: the extension is the part after the last dot, provided the
part before it is nonempty (`".foo"` has no extension, `"a."` has the
empty extension). -/
def splitExt (name : String) : String × Option String :=
  match revSplitDot name.data.reverse with
  | none => (name, none)
  | some (extRev, stemRev) => (String.mk stemRev.reverse, some (String.mk extRev.reverse))

/-- `Path::file_stem` for a top-level file name. -/
def fileStem (name : String) : String := (splitExt name).1

/-- `Path::extension` for a top-level file name. -/
def extensionOf (name : String) : Option String := (splitExt name).2

/-- ASCII lower-casing of a string (`to_ascii_lowercase`; the source
also uses Unicode `to_lowercase` for document-type extensions, which
agrees with this on ASCII extensions). -/
def asciiLower (s : String) : String := String.mk (s.data.map Char.toLower)

/-! ## The resource sort order (`Catalog::update`, lines 211–249) -/

/-- Comparison of `DateTime` values: the derived lexicographic
`PartialOrd` over the six optional fields, in declaration order. -/
def cmpDateTime (a b : RDateTime) : Ordering :=
  thenCmp (fun a b => cmpOpt cmpInt a.year b.year)
    (thenCmp (fun a b => cmpOpt cmpInt a.month b.month)
      (thenCmp (fun a b => cmpOpt cmpInt a.day b.day)
        (thenCmp (fun a b => cmpOpt cmpInt a.hour b.hour)
          (thenCmp (fun a b => cmpOpt cmpInt a.minute b.minute)
            (fun a b => cmpOpt cmpInt a.second b.second))))) a b

/-- The comparator used by `Catalog::update` to sort resources:
title, then date, then edition, then version, then volume. -/
def cmpResource (a b : Resource) : Ordering :=
  thenCmp (fun a b => cmpStr a.title b.title)
    (thenCmp (fun a b => cmpOpt cmpDateTime a.date b.date)
      (thenCmp (fun a b => cmpOpt cmpStr a.edition b.edition)
        (thenCmp (fun a b => cmpOpt cmpStr a.version b.version)
          (fun a b => cmpOpt cmpStr a.volume b.volume)))) a b

/-- Comparator on cache bindings (and assoc-list bindings in general)
by key, as used by `cache.sort_by` and `IndexMap::sort_keys`. -/
def cmpKey {α : Type} (a b : String × α) : Ordering := cmpStr a.1 b.1

/-- Sort an association list by its keys (`IndexMap::sort_keys`). -/
def sortKeys {α : Type} (m : List (String × α)) : List (String × α) :=
  sortByCmp cmpKey m

/-! ### Spec-side order (for the refinement claim C8)

These definitions follow the specification's words, not the code: the
catalog is sorted "by title; ties broken by date, then edition, then
version, then volume — each missing value sorts before present
values". -/

/-- Spec wording: a missing optional value sorts before any present
value; two present values are compared by the underlying strict
order. -/
def specOptLt {α : Type} (lt : α → α → Prop) : Option α → Option α → Prop
  | none, some _ => True
  | some a, some b => lt a b
  | _, none => False

/-- Spec wording: dates are compared field by field (year, month, day,
hour, minute, second), each missing field sorting before present
ones. -/
def specDateLt (a b : RDateTime) : Prop :=
  specOptLt (fun x y : Int => x < y) a.year b.year ∨ (a.year = b.year ∧
    (specOptLt (fun x y : Int => x < y) a.month b.month ∨ (a.month = b.month ∧
      (specOptLt (fun x y : Int => x < y) a.day b.day ∨ (a.day = b.day ∧
        (specOptLt (fun x y : Int => x < y) a.hour b.hour ∨ (a.hour = b.hour ∧
          (specOptLt (fun x y : Int => x < y) a.minute b.minute ∨ (a.minute = b.minute ∧
            specOptLt (fun x y : Int => x < y) a.second b.second)))))))))

/-- Strict string order as a proposition (lexicographic). -/
def strLtP (a b : String) : Prop := strLt a b = true

/-- Spec wording: entry `a` precedes or ties entry `b` in the catalog
order — title first, ties broken by date, then edition, then version,
then volume, missing values first. -/
def specLeResource (a b : Resource) : Prop :=
  strLtP a.title b.title ∨ (a.title = b.title ∧
    (specOptLt specDateLt a.date b.date ∨ (a.date = b.date ∧
      (specOptLt strLtP a.edition b.edition ∨ (a.edition = b.edition ∧
        (specOptLt strLtP a.version b.version ∨ (a.version = b.version ∧
          (specOptLt strLtP a.volume b.volume ∨ a.volume = b.volume))))))))

/-! ## `Catalog::update` (`src/catalog.rs`, lines 43–253) -/

/-- `resource.historical_checksums[0]`: the original digest, the entry's
permanent identity.  Indexing an empty vector panics in Rust, modelled
as an error. -/
def origOf (r : Resource) : Except String String :=
  match r.historical_checksums with
  | [] => .error "index out of bounds: historical_checksums[0]"
  | c :: _ => .ok c

/-- The `(original digest, resource)` pairs of the catalog, in catalog
order. -/
def catalogPairs (rs : List Resource) : Except String (List (String × Resource)) :=
  rs.mapM (fun r => (origOf r).map (fun c => (c, r)))

/-- `catalog_resources`: original digest ↦ resource. -/
def buildMap (pairs : List (String × Resource)) : List (String × Resource) :=
  pairs.foldl (fun m p => indexInsert m p.1 p.2) []

/-- `orphaned_catalog_resources`: the set of original digests, all
provisionally orphaned. -/
def buildOrphans (pairs : List (String × Resource)) : List String :=
  pairs.foldl (fun s p => insertSet s p.1) []

/-- `doc_types`: lower-cased extension ↦ document type name. -/
def buildDocTypes (dts : List (String × DocumentType)) : List (String × String) :=
  dts.foldl (fun m p => indexInsert m (asciiLower p.2.extension) p.1) []

/-- The resource created for newly observed content (the literal at
`src/catalog.rs` lines 145–169): every metadata field defaulted, the
digest history the singleton of the current checksum. -/
def newResource (title : String) (doc : Option String) (checksum : String) : Resource :=
  { title := title, subtitle := none, author := none, editor := none,
    date := none, edition := none, version := none, publisher := none,
    organization := none, journal := none, volume := none, number := none,
    doi := none, tags := none, document_type := doc, content_type := none,
    url := none, checksum := checksum, historical_checksums := [checksum] }

/-- State threaded through the snapshot loop of `Catalog::update`. -/
structure UpdState where
  map : List (String × Resource)
  orphans : List String
  renames : List (String × String)
deriving Repr

/-- One iteration of the snapshot loop (`src/catalog.rs` lines 85–172):
match-by-name updates the entry's checksum and history; otherwise the
file is renamed to its checksum (recorded in `renames`) and a new entry
is created, titled by the file name (minus a recognized document-type
extension). -/
def processOne (docTypes : List (String × String)) (st : UpdState)
    (item : String × String) : UpdState :=
  let checksum := item.1
  let fileName := item.2
  match alookup st.map fileName with
  | some _ =>
    { st with
      map := updateValue st.map fileName (fun r =>
        if r.checksum ≠ checksum then
          { r with historical_checksums := r.historical_checksums ++ [checksum],
                   checksum := checksum }
        else r),
      orphans := eraseStr st.orphans fileName }
  | none =>
    let td : String × Option String :=
      match extensionOf fileName with
      | some e =>
        match alookup docTypes (asciiLower e) with
        | some d => (fileStem fileName, some d)
        | none => (fileName, none)
      | none => (fileName, none)
    { st with
      map := indexInsert st.map checksum (newResource td.1 td.2 checksum),
      renames := st.renames ++ [(fileName, checksum)] }

/-- The per-orphan removal decision (`src/catalog.rs` lines 177–204):
`"true"`/`"false"` decide unconditionally, `"ask"` consults the
operator (oracle), anything else hits the `panic!`. -/
def orphanDecision (removeOrphans : String) (oracle : String → Bool)
    (o : String) : Except String Bool :=
  if removeOrphans = "true" then .ok true
  else if removeOrphans = "false" then .ok false
  else if removeOrphans = "ask" then .ok (oracle o)
  else .error "Possible argument values should prevent this condition from being reached."

/-- The orphan-removal loop: each orphaned original digest is removed
from the map if the policy says so. -/
def removeOrphanEntries (removeOrphans : String) (oracle : String → Bool)
    (orphans : List String) (m : List (String × Resource)) :
    Except String (List (String × Resource)) :=
  orphans.foldlM (fun m o =>
    (orphanDecision removeOrphans oracle o).map (fun d =>
      if d then swapRemoveKey m o else m)) m

/-- `Catalog::update`.  `resources` is the snapshot (checksum ↦ current
file name, the paths being the top-level children of the resources
directory).  Returns the updated catalog and the renames performed
(old name, new name = checksum). -/
def Catalog.update (cat : Catalog) (resources : List (String × String))
    (removeOrphans : String) (oracle : String → Bool) :
    Except String (Catalog × List (String × String)) := do
  let pairs ← catalogPairs cat.resources
  let docTypes := buildDocTypes cat.document_types
  let st := resources.foldl (processOne docTypes)
    ⟨buildMap pairs, buildOrphans pairs, []⟩
  let m ← removeOrphanEntries removeOrphans oracle st.orphans st.map
  pure ({ document_types := sortKeys cat.document_types,
          content_types := sortKeys cat.content_types,
          resources := sortByCmp cmpResource (m.map (·.2)) }, st.renames)

/-! ## The scan (`librarian_catalog`, `src/catalog.rs` lines 375–543) -/

/-- A valid cache hit: the entry under the file's name, provided the
file was not modified after the last verification
(`modified > last_verified` invalidates). -/
def cachedLookup (cache : Cache) (e : FsEntry) : Option String :=
  match alookup cache e.name with
  | some cd => if e.mtime > cd.last_verified then none else some cd.checksum
  | none => none

/-- The cache consultation for one scanned entry (`src/catalog.rs`
lines 439–506): returns the content digest used, the updated cache and
whether the hasher was invoked.  On recomputation the cache entry is
stored under the file name for catalog-backed resources and under the
digest for brand-new ones. -/
def lookupOrCompute (disableCache : Bool) (catalogOrigs : List String)
    (now : Nat) (cache : Cache) (e : FsEntry) : String × Cache × Bool :=
  let hit := if disableCache then none else cachedLookup cache e
  match hit with
  | some c => (c, cache, false)
  | none =>
    let key := if e.name ∈ catalogOrigs then e.name else e.digest
    (e.digest, indexInsert cache key ⟨now, e.digest⟩, true)

/-- State threaded through the directory scan. -/
structure ScanState where
  cache : Cache
  orphans : Cache
  resources : List (String × String)
  deletes : List (String × Bool)
deriving Repr

/-- One scanned top-level entry: drop it from the cache orphans, obtain
its digest (via the cache or the hasher), then either record it in the
snapshot or — on a content collision — delete it from disk (recursively
for a directory). -/
def scanStep (catalogOrigs : List String) (disableCache : Bool) (now : Nat)
    (s : ScanState) (e : FsEntry) : ScanState :=
  let orphans := swapRemoveKey s.orphans e.name
  let r := lookupOrCompute disableCache catalogOrigs now s.cache e
  if (alookup s.resources r.1).isSome then
    { cache := r.2.1, orphans := orphans, resources := s.resources,
      deletes := s.deletes ++ [(e.name, e.isDir)] }
  else
    { cache := r.2.1, orphans := orphans,
      resources := s.resources ++ [(r.1, e.name)], deletes := s.deletes }

/-- The outcome of one full reconciliation run: the rewritten catalog
and cache, the renames and deletes performed, and the resulting
directory contents. -/
structure RunResult where
  catalog : Catalog
  cache : Cache
  renames : List (String × String)
  deletes : List (String × Bool)
  fs : List FsEntry
deriving DecidableEq, Repr

/-- Rename an entry if `Catalog::update` renamed its path. -/
def applyRenames (renames : List (String × String)) (e : FsEntry) : FsEntry :=
  match alookup renames e.name with
  | some n => { e with name := n }
  | none => e

/-- `librarian_catalog`: one reconciliation run.  Scans the top-level
entries, consulting and updating the cache; prunes cache orphans; sorts
and persists the cache; then updates the catalog (which renames files to
their digests) and persists it.  The resulting `fs` reflects the deletes
and renames performed on disk. -/
def librarian_catalog (now : Nat) (disableCache : Bool) (removeOrphans : String)
    (oracle : String → Bool) (catalog : Catalog) (cache : Cache)
    (fs : List FsEntry) : Except String RunResult := do
  let origs ← catalog.resources.mapM origOf
  let s := fs.foldl (scanStep origs disableCache now) ⟨cache, cache, [], []⟩
  let cachePruned := s.orphans.foldl (fun c o => swapRemoveKey c o.1) s.cache
  let upd ← Catalog.update catalog s.resources removeOrphans oracle
  let fsLeft := fs.filter (fun e => !(s.deletes.any (fun d => decide (d.1 = e.name))))
  pure ⟨upd.1, sortKeys cachePruned, upd.2, s.deletes,
        fsLeft.map (applyRenames upd.2)⟩

/-! ## The content hasher at byte level (`file_sha1`,
`directory_recursive_sha1`, `sha1`; `src/catalog.rs` lines 294–362)

The SHA-1 core is an arbitrary function of its input stream; what the
source controls — and what the ambiguity claim C9 is about — is the
*input stream* fed to the hasher.  Streams are lists of `Nat` units
(UTF-8 is order- and concatenation-faithful, so code points stand in for
path bytes; file contents are byte values). -/

/-- The chunk size used by `file_sha1` (0x4000 bytes). -/
def chunkSize : Nat := 0x4000

/-- The successive chunks read by `file_sha1`'s loop: read up to
`chunkSize` units, stop after a short read (an empty file still feeds
one empty chunk). -/
def chunksOfAux : Nat → List Nat → List (List Nat)
  | 0, l => [l.take chunkSize]
  | fuel + 1, l =>
    let c := l.take chunkSize
    if l.length < chunkSize then [c] else c :: chunksOfAux fuel (l.drop chunkSize)

/-- Chunk a content stream as `file_sha1` reads it. -/
def chunksOf (l : List Nat) : List (List Nat) := chunksOfAux (l.length + 1) l

/-- `file_sha1`: the stream a file contributes to the hasher — its
chunks, in order. -/
def file_sha1 (content : List Nat) : List Nat := (chunksOf content).flatten

/-- A file-system subtree: a file with its content bytes, or a directory
with named children.  Children are listed in the walk order
(`WalkDir::sort_by_file_name` visits each directory's children sorted by
name, parents before their contents). -/
inductive FsTree where
  | file (content : List Nat)
  | dir (children : List (String × FsTree))
deriving Repr

/-- Code points of a string, as hasher input units. -/
def strBytes (s : String) : List Nat := s.data.map charVal

mutual

/-- The stream one walked entry at relative path `p` contributes:
its path, then — for files — its content; directories contribute their
path and then, recursively, their children's streams. -/
def entryHash : String → FsTree → List Nat
  | p, .file c => strBytes p ++ file_sha1 c
  | p, .dir cs => strBytes p ++ childrenHash (p ++ "/") cs

/-- `directory_recursive_sha1`'s walk over a directory's children, each
at relative path `pfx ++ name`. -/
def childrenHash (pfx : String) : List (String × FsTree) → List Nat
  | [] => []
  | (n, t) :: rest => entryHash (pfx ++ n) t ++ childrenHash pfx rest

end

/-- `sha1` on a file: the hasher input stream for a top-level file. -/
def sha1FileInput (content : List Nat) : List Nat := file_sha1 content

/-- `sha1` on a directory: the hasher input stream for a top-level
directory with the given children. -/
def sha1DirInput (children : List (String × FsTree)) : List Nat :=
  childrenHash "" children

/-! ## Helper observers used by the claim statements -/

/-- Project the success value of a fallible computation. -/
def okOf {α : Type} : Except String α → Option α
  | .ok a => some a
  | .error _ => none

/-- The digest the scan would use for an entry on a cache hit (junk if
the entry misses the cache). -/
def cachedChecksum (cache : Cache) (e : FsEntry) : String :=
  match alookup cache e.name with
  | some cd => cd.checksum
  | none => ""

/-- Total variant of `origOf` (the default is never used when the
history is nonempty). -/
def origD (r : Resource) : String := r.historical_checksums.headD ""

/-- The steady state a reconciliation run leaves behind when nothing
changed on disk: every history is nonempty and the original digests are
distinct; every directory entry hits the cache; the cached digests are
pairwise distinct and every cache key is backed by a file; every file
name is the original digest of a catalog entry whose checksum is the
cached digest, and every catalog entry's file is present; the cache and
all three catalog collections are already sorted. -/
def Steady (cat : Catalog) (cache : Cache) (fs : List FsEntry) : Prop :=
  (∀ r0 ∈ cat.resources, r0.historical_checksums ≠ []) ∧
  (cat.resources.map origD).Nodup ∧
  (∀ e ∈ fs, cachedLookup cache e = some (cachedChecksum cache e)) ∧
  (fs.map (fun e => cachedChecksum cache e)).Nodup ∧
  (akeys cache).Nodup ∧
  (∀ k ∈ akeys cache, k ∈ fs.map (·.name)) ∧
  (∀ e ∈ fs, ∃ r0 ∈ cat.resources,
      origD r0 = e.name ∧ r0.checksum = cachedChecksum cache e) ∧
  (∀ r0 ∈ cat.resources, origD r0 ∈ fs.map (·.name)) ∧
  sortKeys cache = cache ∧
  sortByCmp cmpResource cat.resources = cat.resources ∧
  sortKeys cat.document_types = cat.document_types ∧
  sortKeys cat.content_types = cat.content_types

instance (cat : Catalog) (cache : Cache) (fs : List FsEntry) :
    Decidable (Steady cat cache fs) := by
  unfold Steady
  infer_instance

/-! # Lemmas -/

/-! ## Comparator laws -/

theorem lexLtCh_cons_iff {x y : Char} {xs ys : List Char} :
    lexLtCh (x :: xs) (y :: ys) = true ↔
      (charVal x < charVal y ∨ (charVal x = charVal y ∧ lexLtCh xs ys = true)) := by
  simp only [lexLtCh]
  by_cases h1 : charVal x < charVal y
  · simp [h1]
  · by_cases h2 : charVal x = charVal y
    · simp [h1, h2]
    · simp [h1, h2]

theorem lexLtCh_asymm : ∀ {a b : List Char}, lexLtCh a b = true → lexLtCh b a = false := by
  intro a
  induction a with
  | nil =>
    intro b h
    cases b with
    | nil => simp [lexLtCh] at h
    | cons y ys => simp [lexLtCh]
  | cons x xs ih =>
    intro b h
    cases b with
    | nil => simp [lexLtCh] at h
    | cons y ys =>
      rw [lexLtCh_cons_iff] at h
      rw [Bool.eq_false_iff, Ne, lexLtCh_cons_iff]
      rcases h with h | ⟨he, h⟩
      · rintro (h2 | ⟨he2, h2⟩) <;> omega
      · rintro (h2 | ⟨he2, h2⟩)
        · omega
        · exact absurd h2 (by simp [ih h])

theorem lexLtCh_trans : ∀ {a b c : List Char},
    lexLtCh a b = true → lexLtCh b c = true → lexLtCh a c = true := by
  intro a
  induction a with
  | nil =>
    intro b c hab hbc
    cases b with
    | nil => simp [lexLtCh] at hab
    | cons y ys =>
      cases c with
      | nil => simp [lexLtCh] at hbc
      | cons z zs => simp [lexLtCh]
  | cons x xs ih =>
    intro b c hab hbc
    cases b with
    | nil => simp [lexLtCh] at hab
    | cons y ys =>
      cases c with
      | nil => simp [lexLtCh] at hbc
      | cons z zs =>
        rw [lexLtCh_cons_iff] at hab hbc ⊢
        rcases hab with hab | ⟨haeq, hab⟩
        · rcases hbc with hbc | ⟨hbeq, hbc⟩
          · exact Or.inl (by omega)
          · exact Or.inl (by omega)
        · rcases hbc with hbc | ⟨hbeq, hbc⟩
          · exact Or.inl (by omega)
          · exact Or.inr ⟨by omega, ih hab hbc⟩

theorem charVal_inj : ∀ {a b : Char}, charVal a = charVal b → a = b := by
  intro a b h
  apply Char.ext
  exact UInt32.toNat.inj h

theorem lexLtCh_conn : ∀ {a b : List Char},
    lexLtCh a b = false → lexLtCh b a = false → a = b := by
  intro a
  induction a with
  | nil =>
    intro b h1 _
    cases b with
    | nil => rfl
    | cons y ys => simp [lexLtCh] at h1
  | cons x xs ih =>
    intro b h1 h2
    cases b with
    | nil => simp [lexLtCh] at h2
    | cons y ys =>
      rw [Bool.eq_false_iff, Ne, lexLtCh_cons_iff] at h1 h2
      push_neg at h1 h2
      have hxy : charVal x = charVal y := by
        have ha := h1.1
        have hb := h2.1
        omega
      have hsub : xs = ys := by
        apply ih
        · exact Bool.eq_false_iff.mpr (h1.2 hxy)
        · exact Bool.eq_false_iff.mpr (h2.2 hxy.symm)
      rw [charVal_inj hxy, hsub]

theorem strLt_lawful : LawfulLt strLt := by
  constructor
  · intro a b h; exact lexLtCh_asymm h
  · intro a b c h1 h2; exact lexLtCh_trans h1 h2
  · intro a b h1 h2
    have h := lexLtCh_conn h1 h2
    cases a; cases b; exact congrArg String.mk h

theorem intLt_lawful : LawfulLt intLt := by
  constructor
  · intro a b h
    simp only [intLt, decide_eq_true_eq] at h
    simp [intLt, not_lt.mpr (le_of_lt h)]
  · intro a b c h1 h2
    simp only [intLt, decide_eq_true_eq] at h1 h2 ⊢
    exact lt_trans h1 h2
  · intro a b h1 h2
    simp only [intLt, decide_eq_false_iff_not, not_lt] at h1 h2
    exact le_antisymm h2 h1

theorem cmpOfLt_lt_iff {α : Type} {lt : α → α → Bool} (_L : LawfulLt lt) {a b : α} :
    cmpOfLt lt a b = .lt ↔ lt a b = true := by
  unfold cmpOfLt
  by_cases h : lt a b = true
  · simp [h]
  · by_cases h2 : lt b a = true <;> simp [h, h2]

theorem cmpOfLt_eq_iff {α : Type} {lt : α → α → Bool} (L : LawfulLt lt) {a b : α} :
    cmpOfLt lt a b = .eq ↔ a = b := by
  unfold cmpOfLt
  constructor
  · intro h
    by_cases h1 : lt a b = true
    · simp [h1] at h
    · by_cases h2 : lt b a = true
      · simp [h1, h2] at h
      · exact L.conn (Bool.eq_false_iff.mpr h1) (Bool.eq_false_iff.mpr h2)
  · rintro rfl
    have : lt a a = false := by
      by_cases h : lt a a = true
      · exact absurd h (Bool.eq_false_iff.mp (L.asymm h))
      · exact Bool.eq_false_iff.mpr h
    simp [this]

theorem cmpOfLt_gt_iff {α : Type} {lt : α → α → Bool} (L : LawfulLt lt) {a b : α} :
    cmpOfLt lt a b = .gt ↔ lt b a = true := by
  unfold cmpOfLt
  by_cases h : lt a b = true
  · simp [h, Bool.eq_false_iff.mp (L.asymm h)]
  · by_cases h2 : lt b a = true <;> simp [h, h2]

theorem cmpOfLt_lawful {α : Type} {lt : α → α → Bool} (L : LawfulLt lt) :
    LawfulCmp (cmpOfLt lt) := by
  constructor
  · intro a b
    by_cases h1 : lt a b = true
    · rw [(cmpOfLt_lt_iff L).mpr h1, (cmpOfLt_gt_iff L).mpr h1]; rfl
    · by_cases h2 : lt b a = true
      · rw [(cmpOfLt_gt_iff L).mpr h2, (cmpOfLt_lt_iff L).mpr h2]; rfl
      · have hab := L.conn (Bool.eq_false_iff.mpr h1) (Bool.eq_false_iff.mpr h2)
        subst hab
        rw [(cmpOfLt_eq_iff L).mpr rfl]; rfl
  · intro a b c h1 h2
    exact (cmpOfLt_lt_iff L).mpr
      (L.trans ((cmpOfLt_lt_iff L).mp h1) ((cmpOfLt_lt_iff L).mp h2))
  · intro a b c h1 h2
    exact (cmpOfLt_eq_iff L).mpr
      (((cmpOfLt_eq_iff L).mp h1).trans ((cmpOfLt_eq_iff L).mp h2))
  · intro a b c h1 h2
    rw [(cmpOfLt_eq_iff L).mp h2] at h1
    exact h1
  · intro a b c h1 h2
    rw [(cmpOfLt_eq_iff L).mp h1]
    exact h2

theorem cmpStr_lawful : LawfulCmp cmpStr := cmpOfLt_lawful strLt_lawful

theorem cmpStr_eq_iff {a b : String} : cmpStr a b = .eq ↔ a = b :=
  cmpOfLt_eq_iff strLt_lawful

theorem cmpStr_lt_iff {a b : String} : cmpStr a b = .lt ↔ strLt a b = true :=
  cmpOfLt_lt_iff strLt_lawful

theorem cmpInt_lawful : LawfulCmp cmpInt := cmpOfLt_lawful intLt_lawful

theorem cmpInt_eq_iff {a b : Int} : cmpInt a b = .eq ↔ a = b :=
  cmpOfLt_eq_iff intLt_lawful

theorem cmpInt_lt_iff {a b : Int} : cmpInt a b = .lt ↔ a < b := by
  unfold cmpInt
  rw [cmpOfLt_lt_iff intLt_lawful]
  simp [intLt]

theorem cmpOpt_lawful {α : Type} {cmp : α → α → Ordering} (L : LawfulCmp cmp) :
    LawfulCmp (cmpOpt cmp) := by
  constructor
  · intro a b
    cases a <;> cases b <;> simp [cmpOpt] <;> try rfl
    exact L.swap _ _
  · intro a b c h1 h2
    cases a <;> cases b <;> cases c <;> simp [cmpOpt] at h1 h2 ⊢
    exact L.lt_trans h1 h2
  · intro a b c h1 h2
    cases a <;> cases b <;> cases c <;> simp [cmpOpt] at h1 h2 ⊢
    exact L.eq_trans h1 h2
  · intro a b c h1 h2
    cases a <;> cases b <;> cases c <;> simp [cmpOpt] at h1 h2 ⊢
    exact L.lt_of_lt_of_eq h1 h2
  · intro a b c h1 h2
    cases a <;> cases b <;> cases c <;> simp [cmpOpt] at h1 h2 ⊢
    exact L.lt_of_eq_of_lt h1 h2

theorem cmpOpt_eq_iff {α : Type} {cmp : α → α → Ordering}
    (hiff : ∀ a b : α, cmp a b = .eq ↔ a = b) {a b : Option α} :
    cmpOpt cmp a b = .eq ↔ a = b := by
  cases a <;> cases b <;> simp [cmpOpt, hiff]

theorem then_eq_lt {a b : Ordering} : a.then b = .lt ↔ (a = .lt ∨ (a = .eq ∧ b = .lt)) := by
  cases a <;> simp [Ordering.then]

theorem then_eq_eq {a b : Ordering} : a.then b = .eq ↔ (a = .eq ∧ b = .eq) := by
  cases a <;> simp [Ordering.then]

theorem then_eq_gt {a b : Ordering} : a.then b = .gt ↔ (a = .gt ∨ (a = .eq ∧ b = .gt)) := by
  cases a <;> simp [Ordering.then]

theorem then_swap {a b : Ordering} : (a.then b).swap = a.swap.then b.swap := by
  cases a <;> cases b <;> rfl

theorem thenCmp_lawful {α : Type} {f g : α → α → Ordering}
    (hf : LawfulCmp f) (hg : LawfulCmp g) : LawfulCmp (thenCmp f g) := by
  constructor
  · intro a b
    unfold thenCmp
    rw [hf.swap a b, hg.swap a b, then_swap]
  · intro a b c h1 h2
    unfold thenCmp at h1 h2 ⊢
    rw [then_eq_lt] at h1 h2 ⊢
    rcases h1 with h1 | ⟨h1e, h1g⟩
    · rcases h2 with h2 | ⟨h2e, h2g⟩
      · exact Or.inl (hf.lt_trans h1 h2)
      · exact Or.inl (hf.lt_of_lt_of_eq h1 h2e)
    · rcases h2 with h2 | ⟨h2e, h2g⟩
      · exact Or.inl (hf.lt_of_eq_of_lt h1e h2)
      · exact Or.inr ⟨hf.eq_trans h1e h2e, hg.lt_trans h1g h2g⟩
  · intro a b c h1 h2
    unfold thenCmp at h1 h2 ⊢
    rw [then_eq_eq] at h1 h2 ⊢
    exact ⟨hf.eq_trans h1.1 h2.1, hg.eq_trans h1.2 h2.2⟩
  · intro a b c h1 h2
    unfold thenCmp at h1 h2 ⊢
    rw [then_eq_lt] at h1 ⊢
    rw [then_eq_eq] at h2
    rcases h1 with h1 | ⟨h1e, h1g⟩
    · exact Or.inl (hf.lt_of_lt_of_eq h1 h2.1)
    · exact Or.inr ⟨hf.eq_trans h1e h2.1, hg.lt_of_lt_of_eq h1g h2.2⟩
  · intro a b c h1 h2
    unfold thenCmp at h1 h2 ⊢
    rw [then_eq_eq] at h1
    rw [then_eq_lt] at h2 ⊢
    rcases h2 with h2 | ⟨h2e, h2g⟩
    · exact Or.inl (hf.lt_of_eq_of_lt h1.1 h2)
    · exact Or.inr ⟨hf.eq_trans h1.1 h2e, hg.lt_of_eq_of_lt h1.2 h2g⟩

theorem projCmp_lawful {α β : Type} (proj : α → β) {cmp : β → β → Ordering}
    (L : LawfulCmp cmp) : LawfulCmp (fun a b => cmp (proj a) (proj b)) :=
  ⟨fun a b => L.swap (proj a) (proj b),
   fun h1 h2 => L.lt_trans h1 h2,
   fun h1 h2 => L.eq_trans h1 h2,
   fun h1 h2 => L.lt_of_lt_of_eq h1 h2,
   fun h1 h2 => L.lt_of_eq_of_lt h1 h2⟩

theorem cmpDateTime_lawful : LawfulCmp cmpDateTime := by
  have L := cmpOpt_lawful cmpInt_lawful
  unfold cmpDateTime
  exact thenCmp_lawful (projCmp_lawful RDateTime.year L)
    (thenCmp_lawful (projCmp_lawful RDateTime.month L)
      (thenCmp_lawful (projCmp_lawful RDateTime.day L)
        (thenCmp_lawful (projCmp_lawful RDateTime.hour L)
          (thenCmp_lawful (projCmp_lawful RDateTime.minute L)
            (projCmp_lawful RDateTime.second L)))))

theorem cmpResource_lawful : LawfulCmp cmpResource := by
  unfold cmpResource
  exact thenCmp_lawful (projCmp_lawful Resource.title cmpStr_lawful)
    (thenCmp_lawful (projCmp_lawful Resource.date (cmpOpt_lawful cmpDateTime_lawful))
      (thenCmp_lawful (projCmp_lawful Resource.edition (cmpOpt_lawful cmpStr_lawful))
        (thenCmp_lawful (projCmp_lawful Resource.version (cmpOpt_lawful cmpStr_lawful))
          (projCmp_lawful Resource.volume (cmpOpt_lawful cmpStr_lawful)))))

theorem cmpKey_lawful {α : Type} : LawfulCmp (cmpKey (α := α)) :=
  projCmp_lawful Prod.fst cmpStr_lawful

/-! ## Derived order facts and sorting lemmas -/

theorem LawfulCmp.gt_iff_lt {α : Type} {cmp : α → α → Ordering} (L : LawfulCmp cmp)
    {a b : α} : cmp a b = .gt ↔ cmp b a = .lt := by
  rw [L.swap a b]
  cases cmp b a <;> simp [Ordering.swap]

theorem LawfulCmp.le_trans {α : Type} {cmp : α → α → Ordering} (L : LawfulCmp cmp)
    {a b c : α} (h1 : cmp a b ≠ .gt) (h2 : cmp b c ≠ .gt) : cmp a c ≠ .gt := by
  cases hab : cmp a b with
  | gt => exact absurd hab h1
  | lt =>
    cases hbc : cmp b c with
    | gt => exact absurd hbc h2
    | lt => simp [L.lt_trans hab hbc]
    | eq => simp [L.lt_of_lt_of_eq hab hbc]
  | eq =>
    cases hbc : cmp b c with
    | gt => exact absurd hbc h2
    | lt => simp [L.lt_of_eq_of_lt hab hbc]
    | eq => simp [L.eq_trans hab hbc]

theorem LawfulCmp.le_total {α : Type} {cmp : α → α → Ordering} (L : LawfulCmp cmp)
    (a b : α) : cmp a b ≠ .gt ∨ cmp b a ≠ .gt := by
  cases hab : cmp a b with
  | lt => exact Or.inl (by simp)
  | eq => exact Or.inl (by simp)
  | gt =>
    have := (L.gt_iff_lt).mp hab
    exact Or.inr (by simp [this])

theorem insertCmp_perm {α : Type} (cmp : α → α → Ordering) (x : α) (l : List α) :
    List.Perm (insertCmp cmp x l) (x :: l) := by
  induction l with
  | nil => rfl
  | cons y ys ih =>
    unfold insertCmp
    by_cases h : cmp x y = .gt
    · rw [if_pos h]
      exact (ih.cons y).trans (List.Perm.swap x y ys)
    · rw [if_neg h]

theorem sortByCmp_perm {α : Type} (cmp : α → α → Ordering) (l : List α) :
    List.Perm (sortByCmp cmp l) l := by
  induction l with
  | nil => rfl
  | cons x xs ih => exact (insertCmp_perm cmp x (sortByCmp cmp xs)).trans (ih.cons x)

theorem insertCmp_pairwise {α : Type} {cmp : α → α → Ordering} (L : LawfulCmp cmp)
    {x : α} {l : List α} (h : l.Pairwise (fun a b => cmp a b ≠ .gt)) :
    (insertCmp cmp x l).Pairwise (fun a b => cmp a b ≠ .gt) := by
  induction l with
  | nil => simp [insertCmp]
  | cons y ys ih =>
    rw [List.pairwise_cons] at h
    unfold insertCmp
    by_cases hxy : cmp x y = .gt
    · rw [if_pos hxy]
      rw [List.pairwise_cons]
      constructor
      · intro z hz
        rcases List.mem_cons.mp ((insertCmp_perm cmp x ys).mem_iff.mp hz) with hz | hz
        · subst hz
          simp [(L.gt_iff_lt).mp hxy]
        · exact h.1 z hz
      · exact ih h.2
    · rw [if_neg hxy]
      rw [List.pairwise_cons]
      constructor
      · intro z hz
        rcases List.mem_cons.mp hz with hz | hz
        · subst hz; exact hxy
        · exact L.le_trans hxy (h.1 z hz)
      · rw [List.pairwise_cons]
        exact h
  -- reference shape kept simple

theorem sortByCmp_pairwise {α : Type} {cmp : α → α → Ordering} (L : LawfulCmp cmp)
    (l : List α) : (sortByCmp cmp l).Pairwise (fun a b => cmp a b ≠ .gt) := by
  induction l with
  | nil => simp [sortByCmp]
  | cons x xs ih => exact insertCmp_pairwise L ih

theorem insertCmp_front {α : Type} {cmp : α → α → Ordering} {x : α} {l : List α}
    (h : ∀ y ∈ l, cmp x y ≠ .gt) : insertCmp cmp x l = x :: l := by
  cases l with
  | nil => rfl
  | cons y ys =>
    unfold insertCmp
    rw [if_neg (h y (by simp))]

theorem sortByCmp_sorted_id {α : Type} {cmp : α → α → Ordering} {l : List α}
    (h : l.Pairwise (fun a b => cmp a b ≠ .gt)) : sortByCmp cmp l = l := by
  induction l with
  | nil => rfl
  | cons x xs ih =>
    rw [List.pairwise_cons] at h
    unfold sortByCmp
    rw [ih h.2, insertCmp_front h.1]

/-! ## Association-list lemmas -/

theorem alookup_eq_none_iff {α : Type} {m : List (String × α)} {k : String} :
    alookup m k = none ↔ k ∉ akeys m := by
  induction m with
  | nil => simp [alookup, akeys]
  | cons p t ih =>
    obtain ⟨k1, v1⟩ := p
    by_cases h : k1 = k
    · subst h
      simp [alookup, akeys]
    · simp [alookup, akeys, h, ih, Ne.symm h]

theorem alookup_mem {α : Type} {m : List (String × α)} {k : String} {v : α}
    (h : alookup m k = some v) : (k, v) ∈ m := by
  induction m with
  | nil => simp [alookup] at h
  | cons p t ih =>
    obtain ⟨k1, v1⟩ := p
    by_cases hk : k1 = k
    · subst hk
      simp [alookup] at h
      simp [h]
    · simp only [alookup, if_neg hk] at h
      simp [ih h]

theorem mem_alookup {α : Type} {m : List (String × α)} {k : String} {v : α}
    (hnd : (akeys m).Nodup) (h : (k, v) ∈ m) : alookup m k = some v := by
  induction m with
  | nil => simp at h
  | cons p t ih =>
    obtain ⟨k1, v1⟩ := p
    simp only [akeys, List.map_cons, List.nodup_cons] at hnd
    rcases List.mem_cons.mp h with h | h
    · obtain ⟨h1, h2⟩ := Prod.mk.injEq .. ▸ h
      injection h with h
      simp_all [alookup]
    · have hne : k1 ≠ k := by
        intro he
        subst he
        exact hnd.1 (by simpa [akeys] using List.mem_map_of_mem Prod.fst h)
      simp [alookup, hne, ih hnd.2 h]

theorem alookup_append {α : Type} (l1 l2 : List (String × α)) (k : String) :
    alookup (l1 ++ l2) k =
      match alookup l1 k with
      | some v => some v
      | none => alookup l2 k := by
  induction l1 with
  | nil => simp [alookup]
  | cons p t ih =>
    obtain ⟨k1, v1⟩ := p
    by_cases h : k1 = k <;> simp [alookup, h, ih]

theorem indexInsert_alookup {α : Type} (m : List (String × α)) (k : String) (v : α)
    (q : String) :
    alookup (indexInsert m k v) q = if q = k then some v else alookup m q := by
  induction m with
  | nil =>
    by_cases h : q = k
    · simp [indexInsert, alookup, h]
    · have h2 : ¬ k = q := fun hh => h hh.symm
      simp [indexInsert, alookup, h, h2]
  | cons p t ih =>
    obtain ⟨k1, v1⟩ := p
    by_cases h1 : k1 = k
    · subst h1
      by_cases h2 : q = k1
      · simp [indexInsert, alookup, h2]
      · have h3 : ¬ k1 = q := fun hh => h2 hh.symm
        simp [indexInsert, alookup, h2, h3]
    · by_cases h2 : q = k1
      · subst h2
        have h4 : ¬ k = q := fun hh => h1 hh.symm
        simp [indexInsert, alookup, h1, h4]
      · have h3 : ¬ k1 = q := fun hh => h2 hh.symm
        simp [indexInsert, alookup, h1, h3, ih]

theorem indexInsert_of_not_mem {α : Type} {m : List (String × α)} {k : String}
    (h : k ∉ akeys m) (v : α) : indexInsert m k v = m ++ [(k, v)] := by
  induction m with
  | nil => simp [indexInsert]
  | cons p t ih =>
    obtain ⟨k1, v1⟩ := p
    simp only [akeys, List.map_cons, List.mem_cons] at h
    push_neg at h
    have h3 : ¬ k1 = k := fun hh => h.1 hh.symm
    simp [indexInsert, h3, ih (by simpa [akeys] using h.2)]

theorem akeys_append {α : Type} (l1 l2 : List (String × α)) :
    akeys (l1 ++ l2) = akeys l1 ++ akeys l2 := by
  simp [akeys]

theorem akeys_indexInsert_mem {α : Type} {m : List (String × α)} {k : String}
    (h : k ∈ akeys m) (v : α) : akeys (indexInsert m k v) = akeys m := by
  induction m with
  | nil => simp [akeys] at h
  | cons p t ih =>
    obtain ⟨k1, v1⟩ := p
    by_cases h1 : k1 = k
    · simp [indexInsert, akeys, h1]
    · have h0 : k ∈ k1 :: akeys t := by simpa only [akeys, List.map_cons] using h
      have hk : k ∈ akeys t := by
        rcases List.mem_cons.mp h0 with hh | hh
        · exact absurd hh.symm h1
        · exact hh
      simp only [indexInsert, if_neg h1, akeys, List.map_cons, List.cons.injEq]
      exact ⟨trivial, by simpa only [akeys] using ih hk⟩

theorem akeys_indexInsert_not_mem {α : Type} {m : List (String × α)} {k : String}
    (h : k ∉ akeys m) (v : α) : akeys (indexInsert m k v) = akeys m ++ [k] := by
  rw [indexInsert_of_not_mem h, akeys_append]
  rfl

theorem indexInsert_nodup {α : Type} {m : List (String × α)} {k : String} {v : α}
    (h : (akeys m).Nodup) : (akeys (indexInsert m k v)).Nodup := by
  by_cases hm : k ∈ akeys m
  · rw [akeys_indexInsert_mem hm]
    exact h
  · rw [akeys_indexInsert_not_mem hm]
    simp [List.nodup_append, h, hm]

theorem updateValue_akeys {α : Type} (m : List (String × α)) (k : String)
    (f : α → α) : akeys (updateValue m k f) = akeys m := by
  induction m with
  | nil => rfl
  | cons p t ih =>
    obtain ⟨k1, v1⟩ := p
    by_cases h : k1 = k
    · simp [updateValue, akeys, h]
    · simp only [updateValue, if_neg h, akeys, List.map_cons, List.cons.injEq]
      exact ⟨trivial, by simpa only [akeys] using ih⟩

theorem updateValue_of_not_mem {α : Type} {m : List (String × α)} {k : String}
    (h : k ∉ akeys m) (f : α → α) : updateValue m k f = m := by
  induction m with
  | nil => rfl
  | cons p t ih =>
    obtain ⟨k1, v1⟩ := p
    simp only [akeys, List.map_cons, List.mem_cons] at h
    push_neg at h
    have h3 : ¬ k1 = k := fun hh => h.1 hh.symm
    simp [updateValue, h3, ih (by simpa [akeys] using h.2)]

theorem updateValue_id {α : Type} {m : List (String × α)} {k : String} {f : α → α}
    (h : ∀ v, alookup m k = some v → f v = v) : updateValue m k f = m := by
  induction m with
  | nil => rfl
  | cons p t ih =>
    obtain ⟨k1, v1⟩ := p
    by_cases hk : k1 = k
    · subst hk
      have := h v1 (by simp [alookup])
      simp [updateValue, this]
    · simp only [updateValue, if_neg hk]
      rw [ih]
      intro v hv
      apply h
      simpa [alookup, hk] using hv

theorem updateValue_alookup {α : Type} (m : List (String × α)) (k : String)
    (f : α → α) (q : String) :
    alookup (updateValue m k f) q =
      if q = k then (alookup m k).map f else alookup m q := by
  induction m with
  | nil => simp [updateValue, alookup]
  | cons p t ih =>
    obtain ⟨k1, v1⟩ := p
    by_cases h1 : k1 = k
    · subst h1
      by_cases h2 : q = k1
      · simp [updateValue, alookup, h2]
      · have h3 : ¬ k1 = q := fun hh => h2 hh.symm
        simp [updateValue, alookup, h2, h3]
    · by_cases h2 : q = k1
      · subst h2
        have h4 : ¬ k = q := fun hh => h1 hh.symm
        simp [updateValue, alookup, h1, h4]
      · have h3 : ¬ k1 = q := fun hh => h2 hh.symm
        simp [updateValue, alookup, h1, h3, ih]

theorem getLast?_decomp {α : Type} : ∀ {l : List α} {a : α},
    l.getLast? = some a → l = l.dropLast ++ [a] := by
  intro l
  induction l with
  | nil => intro a h; simp at h
  | cons x xs ih =>
    intro a h
    cases xs with
    | nil =>
      simp only [List.getLast?_singleton, Option.some.injEq] at h
      simp [h]
    | cons y ys =>
      rw [List.getLast?_cons_cons] at h
      have := ih h
      calc x :: y :: ys = x :: ((y :: ys).dropLast ++ [a]) := by rw [← this]
        _ = (x :: y :: ys).dropLast ++ [a] := by simp

theorem mem_akeys_iff {α : Type} {m : List (String × α)} {k : String} :
    k ∈ akeys m ↔ ∃ v, (k, v) ∈ m := by
  simp only [akeys, List.mem_map]
  constructor
  · rintro ⟨⟨a, b⟩, hm, rfl⟩
    exact ⟨b, hm⟩
  · rintro ⟨v, hv⟩
    exact ⟨(k, v), hv, rfl⟩

theorem splitAtKey_eq_none_iff {α : Type} {m : List (String × α)} {k : String} :
    splitAtKey m k = none ↔ k ∉ akeys m := by
  induction m with
  | nil => simp [splitAtKey, akeys]
  | cons p t ih =>
    obtain ⟨k1, v1⟩ := p
    by_cases h : k1 = k
    · subst h
      simp [splitAtKey, akeys]
    · have hne : ¬ k = k1 := fun hh => h hh.symm
      cases hs : splitAtKey t k with
      | none =>
        have hk := ih.mp hs
        simp only [splitAtKey, if_neg h, hs, Option.map_none]
        simp only [akeys, List.map_cons, List.mem_cons]
        constructor
        · intro _ hc
          rcases hc with hc | hc
          · exact hne hc
          · exact hk (by simpa [akeys] using hc)
        · intro _
          rfl
      | some trip =>
        have hk : k ∈ akeys t := by
          by_contra hc
          have h0 := ih.mpr hc
          rw [h0] at hs
          exact Option.noConfusion hs
        simp only [splitAtKey, if_neg h, hs, Option.map_some]
        constructor
        · intro hc
          exact Option.noConfusion hc
        · intro hc
          exact absurd (show k ∈ akeys ((k1, v1) :: t) by
            simp only [akeys, List.map_cons, List.mem_cons]
            exact Or.inr (by simpa [akeys] using hk)) hc

theorem splitAtKey_some {α : Type} : ∀ {m l1 l2 : List (String × α)} {k : String} {v : α},
    splitAtKey m k = some (l1, v, l2) → m = l1 ++ (k, v) :: l2 ∧ k ∉ akeys l1 := by
  intro m
  induction m with
  | nil => intro l1 l2 k v h; simp [splitAtKey] at h
  | cons p t ih =>
    intro l1 l2 k v h
    obtain ⟨k1, v1⟩ := p
    by_cases hk : k1 = k
    · subst hk
      simp only [splitAtKey, if_pos rfl, Option.some.injEq] at h
      cases h
      simp [akeys]
    · simp only [splitAtKey, if_neg hk] at h
      cases hs : splitAtKey t k with
      | none =>
        rw [hs] at h
        exact Option.noConfusion h
      | some trip =>
        obtain ⟨a, b, c⟩ := trip
        rw [hs] at h
        simp only [Option.map, Option.some.injEq] at h
        obtain ⟨hd, hn⟩ := ih hs
        cases h
        constructor
        · simp [hd]
        · simp only [akeys, List.map_cons, List.mem_cons]
          push_neg
          exact ⟨fun hh => hk hh.symm, by simpa [akeys] using hn⟩

theorem swapRemoveKey_not_mem {α : Type} {m : List (String × α)} {k : String}
    (h : k ∉ akeys m) : swapRemoveKey m k = m := by
  unfold swapRemoveKey
  rw [splitAtKey_eq_none_iff.mpr h]

theorem swapRemoveKey_perm {α : Type} {m l1 l2 : List (String × α)} {k : String} {v : α}
    (h : splitAtKey m k = some (l1, v, l2)) :
    List.Perm (swapRemoveKey m k) (l1 ++ l2) := by
  simp only [swapRemoveKey, h]
  cases hl : l2.getLast? with
  | none =>
    rw [List.getLast?_eq_none_iff] at hl
    simp [hl]
  | some last =>
    have hd := getLast?_decomp hl
    conv_rhs => rw [hd]
    exact List.Perm.append_left l1 (List.perm_append_singleton last l2.dropLast).symm

theorem mem_of_mem_swapRemoveKey {α : Type} {m : List (String × α)} {k : String}
    {p : String × α} (h : p ∈ swapRemoveKey m k) : p ∈ m := by
  cases hs : splitAtKey m k with
  | none =>
    unfold swapRemoveKey at h
    rw [hs] at h
    exact h
  | some trip =>
    obtain ⟨l1, v, l2⟩ := trip
    have hp := (swapRemoveKey_perm hs).mem_iff.mp h
    have hd := (splitAtKey_some hs).1
    rw [hd]
    rcases List.mem_append.mp hp with hp | hp
    · exact List.mem_append.mpr (Or.inl hp)
    · exact List.mem_append.mpr (Or.inr (List.mem_cons_of_mem _ hp))

theorem akeys_swapRemoveKey_iff {α : Type} {m : List (String × α)} {k q : String}
    (hnd : (akeys m).Nodup) :
    q ∈ akeys (swapRemoveKey m k) ↔ q ∈ akeys m ∧ q ≠ k := by
  cases hs : splitAtKey m k with
  | none =>
    unfold swapRemoveKey
    rw [hs]
    have hk := splitAtKey_eq_none_iff.mp hs
    constructor
    · intro h
      refine ⟨h, ?_⟩
      rintro rfl
      exact hk h
    · exact fun h => h.1
  | some trip =>
    obtain ⟨l1, v, l2⟩ := trip
    obtain ⟨hd, hn1⟩ := splitAtKey_some hs
    have hperm := swapRemoveKey_perm hs
    have hkeysperm : List.Perm (akeys (swapRemoveKey m k)) (akeys (l1 ++ l2)) :=
      hperm.map Prod.fst
    rw [hkeysperm.mem_iff]
    subst hd
    have hn2 : k ∉ akeys l2 := by
      rw [akeys_append] at hnd
      simp only [akeys, List.map_cons] at hnd
      have := (List.nodup_append.mp hnd).2
      rw [List.nodup_cons] at this
      exact this.1.1
    rw [akeys_append, akeys_append] at *
    simp only [akeys, List.map_cons, List.mem_append, List.mem_cons]
    constructor
    · intro h
      rcases h with h | h
      · exact ⟨Or.inl h, fun hq => hn1 (hq ▸ h)⟩
      · exact ⟨Or.inr (Or.inr h), fun hq => hn2 (hq ▸ h)⟩
    · rintro ⟨h, hq⟩
      rcases h with h | h | h
      · exact Or.inl h
      · exact absurd h hq
      · exact Or.inr h

theorem akeys_swapRemoveKey_sub {α : Type} {m : List (String × α)} {k q : String}
    (h : q ∈ akeys (swapRemoveKey m k)) : q ∈ akeys m := by
  rcases mem_akeys_iff.mp h with ⟨v, hv⟩
  exact mem_akeys_iff.mpr ⟨v, mem_of_mem_swapRemoveKey hv⟩

theorem swapRemoveKey_nodup {α : Type} {m : List (String × α)} {k : String}
    (hnd : (akeys m).Nodup) : (akeys (swapRemoveKey m k)).Nodup := by
  cases hs : splitAtKey m k with
  | none =>
    unfold swapRemoveKey
    rw [hs]
    exact hnd
  | some trip =>
    obtain ⟨l1, v, l2⟩ := trip
    have hperm : List.Perm (akeys (swapRemoveKey m k)) (akeys (l1 ++ l2)) :=
      (swapRemoveKey_perm hs).map Prod.fst
    rw [hperm.nodup_iff]
    obtain ⟨hd, _⟩ := splitAtKey_some hs
    subst hd
    have hsub : List.Sublist (akeys (l1 ++ l2)) (akeys (l1 ++ (k, v) :: l2)) := by
      rw [akeys_append, akeys_append]
      simp only [akeys, List.map_cons]
      exact List.Sublist.append_left (List.sublist_cons_self k (l2.map Prod.fst)) (l1.map Prod.fst)
    exact hsub.nodup hnd

theorem mem_swapRemoveKey_of_ne {α : Type} {m : List (String × α)} {k : String}
    {p : String × α} (hm : p ∈ m) (hne : p.1 ≠ k) : p ∈ swapRemoveKey m k := by
  cases hs : splitAtKey m k with
  | none =>
    unfold swapRemoveKey
    rw [hs]
    exact hm
  | some trip =>
    obtain ⟨l1, v, l2⟩ := trip
    obtain ⟨hd, _⟩ := splitAtKey_some hs
    rw [(swapRemoveKey_perm hs).mem_iff]
    subst hd
    rcases List.mem_append.mp hm with h | h
    · exact List.mem_append.mpr (Or.inl h)
    · rcases List.mem_cons.mp h with h | h
      · exact absurd (congrArg Prod.fst h) hne
      · exact List.mem_append.mpr (Or.inr h)

theorem alookup_swapRemoveKey {α : Type} {m : List (String × α)} {k q : String}
    (hnd : (akeys m).Nodup) (hne : q ≠ k) :
    alookup (swapRemoveKey m k) q = alookup m q := by
  cases hq : alookup m q with
  | some v =>
    exact mem_alookup (swapRemoveKey_nodup hnd)
      (mem_swapRemoveKey_of_ne (alookup_mem hq) hne)
  | none =>
    rw [alookup_eq_none_iff] at hq ⊢
    intro hc
    exact hq (akeys_swapRemoveKey_sub hc)

theorem akeys_eq_nil {α : Type} {m : List (String × α)} (h : akeys m = []) : m = [] := by
  cases m with
  | nil => rfl
  | cons p t => simp [akeys] at h

theorem eraseStr_not_mem {s : List String} {x : String} (h : x ∉ s) :
    eraseStr s x = s := by
  induction s with
  | nil => rfl
  | cons a t ih =>
    simp only [List.mem_cons] at h
    push_neg at h
    have h3 : ¬ a = x := fun hh => h.1 hh.symm
    simp [eraseStr, h3, ih h.2]

theorem mem_eraseStr_of_ne {s : List String} {x a : String} (hm : a ∈ s) (hne : a ≠ x) :
    a ∈ eraseStr s x := by
  induction s with
  | nil => simp at hm
  | cons b t ih =>
    unfold eraseStr
    by_cases hb : b = x
    · rw [if_pos hb]
      rcases List.mem_cons.mp hm with h | h
      · exact absurd (h.trans hb) hne
      · exact h
    · rw [if_neg hb]
      rcases List.mem_cons.mp hm with h | h
      · exact h ▸ List.mem_cons_self b _
      · exact List.mem_cons_of_mem b (ih h)

theorem mem_of_mem_eraseStr {s : List String} {x a : String} (h : a ∈ eraseStr s x) :
    a ∈ s := by
  induction s with
  | nil => simp [eraseStr] at h
  | cons b t ih =>
    unfold eraseStr at h
    by_cases hb : b = x
    · rw [if_pos hb] at h
      exact List.mem_cons_of_mem b h
    · rw [if_neg hb] at h
      rcases List.mem_cons.mp h with h | h
      · exact h ▸ List.mem_cons_self b _
      · exact List.mem_cons_of_mem b (ih h)

theorem not_mem_eraseStr {s : List String} {x : String} (hnd : s.Nodup) :
    x ∉ eraseStr s x := by
  induction s with
  | nil => simp [eraseStr]
  | cons b t ih =>
    rw [List.nodup_cons] at hnd
    unfold eraseStr
    by_cases hb : b = x
    · rw [if_pos hb]
      rw [hb] at hnd
      exact hnd.1
    · rw [if_neg hb]
      intro hc
      rcases List.mem_cons.mp hc with h | h
      · exact hb h.symm
      · exact ih hnd.2 h

theorem eraseStr_nodup {s : List String} {x : String} (hnd : s.Nodup) :
    (eraseStr s x).Nodup := by
  induction s with
  | nil => simp [eraseStr]
  | cons b t ih =>
    rw [List.nodup_cons] at hnd
    unfold eraseStr
    by_cases hb : b = x
    · rw [if_pos hb]
      exact hnd.2
    · rw [if_neg hb]
      rw [List.nodup_cons]
      exact ⟨fun hc => hnd.1 (mem_of_mem_eraseStr hc), ih hnd.2⟩

theorem mem_foldl_eraseStr {s : List String} {names : List String} {a : String}
    (hnd : s.Nodup) :
    a ∈ names.foldl eraseStr s ↔ a ∈ s ∧ a ∉ names := by
  induction names generalizing s with
  | nil => simp
  | cons n rest ih =>
    simp only [List.foldl_cons, List.mem_cons]
    rw [ih (eraseStr_nodup hnd)]
    constructor
    · rintro ⟨h1, h2⟩
      refine ⟨mem_of_mem_eraseStr h1, ?_⟩
      push_neg
      refine ⟨?_, h2⟩
      rintro rfl
      exact not_mem_eraseStr hnd h1
    · rintro ⟨h1, h2⟩
      push_neg at h2
      exact ⟨mem_eraseStr_of_ne h1 h2.1, h2.2⟩

theorem foldl_eraseStr_nodup {s : List String} {names : List String}
    (hnd : s.Nodup) : (names.foldl eraseStr s).Nodup := by
  induction names generalizing s with
  | nil => exact hnd
  | cons n rest ih => exact ih (eraseStr_nodup hnd)

theorem foldl_insertSet_of_nodup {acc l : List String} (h : (acc ++ l).Nodup) :
    l.foldl insertSet acc = acc ++ l := by
  induction l generalizing acc with
  | nil => simp
  | cons x rest ih =>
    have hx : x ∉ acc := by
      intro hc
      rw [List.nodup_append] at h
      exact h.2.2 hc (by simp)
    simp only [List.foldl_cons, insertSet, if_neg hx]
    rw [ih (by simpa using h)]
    simp

theorem foldl_indexInsert_of_nodup {α : Type} {acc pairs : List (String × α)}
    (h : (akeys acc ++ pairs.map (·.1)).Nodup) :
    pairs.foldl (fun m p => indexInsert m p.1 p.2) acc = acc ++ pairs := by
  induction pairs generalizing acc with
  | nil => simp
  | cons p rest ih =>
    obtain ⟨k, v⟩ := p
    have hk : k ∉ akeys acc := by
      intro hc
      rw [List.nodup_append] at h
      exact h.2.2 hc (by simp)
    simp only [List.foldl_cons]
    rw [indexInsert_of_not_mem hk]
    rw [ih (by
      rw [akeys_append]
      simpa [akeys] using h)]
    simp

theorem buildMap_eq {pairs : List (String × Resource)}
    (h : (pairs.map (·.1)).Nodup) : buildMap pairs = pairs := by
  unfold buildMap
  have := @foldl_indexInsert_of_nodup Resource [] pairs (by simpa [akeys] using h)
  simpa using this

theorem buildOrphans_eq {pairs : List (String × Resource)}
    (h : (pairs.map (·.1)).Nodup) : buildOrphans pairs = pairs.map (·.1) := by
  unfold buildOrphans
  have hfold : (pairs.map (·.1)).foldl insertSet [] = [] ++ pairs.map (·.1) :=
    foldl_insertSet_of_nodup (by simpa using h)
  have : pairs.foldl (fun s p => insertSet s p.1) [] = (pairs.map (·.1)).foldl insertSet [] := by
    rw [List.foldl_map]
  rw [this, hfold]
  simp

theorem foldl_swapRemove_nodup {α : Type} {c : List (String × α)} {os : List (String × α)}
    (hnd : (akeys c).Nodup) :
    (akeys (os.foldl (fun c o => swapRemoveKey c o.1) c)).Nodup := by
  induction os generalizing c with
  | nil => exact hnd
  | cons o rest ih => exact ih (swapRemoveKey_nodup hnd)

theorem mem_akeys_foldl_swapRemove {α : Type} {c : List (String × α)}
    {os : List (String × α)} {q : String} (hnd : (akeys c).Nodup) :
    q ∈ akeys (os.foldl (fun c o => swapRemoveKey c o.1) c) ↔
      q ∈ akeys c ∧ q ∉ os.map (·.1) := by
  induction os generalizing c with
  | nil => simp
  | cons o rest ih =>
    simp only [List.foldl_cons, List.map_cons, List.mem_cons]
    rw [ih (swapRemoveKey_nodup hnd)]
    rw [akeys_swapRemoveKey_iff hnd]
    constructor
    · rintro ⟨⟨h1, h2⟩, h3⟩
      exact ⟨h1, by push_neg; exact ⟨h2, h3⟩⟩
    · rintro ⟨h1, h2⟩
      push_neg at h2
      exact ⟨⟨h1, h2.1⟩, h2.2⟩

theorem foldl_swapRemove_names_nil {α : Type} {c : List (String × α)}
    {names : List String} (hnd : (akeys c).Nodup)
    (hsub : ∀ k ∈ akeys c, k ∈ names) :
    names.foldl swapRemoveKey c = [] := by
  induction names generalizing c with
  | nil =>
    cases hc : akeys c with
    | nil => exact akeys_eq_nil hc
    | cons k t =>
      have : k ∈ akeys c := by rw [hc]; simp
      simp at hsub
      exact absurd this (by simpa using hsub k)
  | cons n rest ih =>
    simp only [List.foldl_cons]
    apply ih (swapRemoveKey_nodup hnd)
    intro k hk
    have := (akeys_swapRemoveKey_iff hnd).mp hk
    rcases List.mem_cons.mp (hsub k this.1) with h | h
    · exact absurd h this.2
    · exact h

/-! ## Hasher lemmas -/

theorem chunksOfAux_flatten : ∀ (fuel : Nat) (l : List Nat),
    l.length < (fuel + 1) * chunkSize → (chunksOfAux fuel l).flatten = l := by
  intro fuel
  induction fuel with
  | zero =>
    intro l h
    simp only [chunksOfAux, List.flatten]
    rw [List.take_of_length_le (by simpa using Nat.le_of_lt h)]
    simp
  | succ fuel ih =>
    intro l h
    have hc : 0 < chunkSize := by norm_num [chunkSize]
    unfold chunksOfAux
    by_cases hl : l.length < chunkSize
    · rw [if_pos hl]
      simp only [List.flatten]
      rw [List.take_of_length_le (Nat.le_of_lt hl)]
      simp
    · rw [if_neg hl]
      push_neg at hl
      simp only [List.flatten_cons]
      rw [ih (l.drop chunkSize) (by
        rw [List.length_drop]
        have hmul : (fuel + 1 + 1) * chunkSize = (fuel + 1) * chunkSize + chunkSize := by ring
        omega)]
      exact List.take_append_drop chunkSize l

theorem file_sha1_id (c : List Nat) : file_sha1 c = c := by
  unfold file_sha1 chunksOf
  apply chunksOfAux_flatten
  have hc : 0 < chunkSize := by norm_num [chunkSize]
  nlinarith

/-! ## `Except` plumbing lemmas -/

theorem catalogPairs_eq {rs : List Resource}
    (h : ∀ r ∈ rs, r.historical_checksums ≠ []) :
    catalogPairs rs = .ok (rs.map (fun r => (origD r, r))) := by
  induction rs with
  | nil => rfl
  | cons r t ih =>
    have hr := h r (by simp)
    unfold catalogPairs at ih ⊢
    rw [List.mapM_cons]
    cases hh : r.historical_checksums with
    | nil => exact absurd hh hr
    | cons c rest =>
      have horig : origOf r = .ok c := by simp [origOf, hh]
      have horigD : origD r = c := by simp [origD, hh]
      rw [ih (fun x hx => h x (by simp [hx]))]
      simp only [horig, horigD, Except.map]
      simp [Bind.bind, Except.bind, pure, Except.pure, horigD]

theorem mapM_origOf_eq {rs : List Resource}
    (h : ∀ r ∈ rs, r.historical_checksums ≠ []) :
    rs.mapM origOf = .ok (rs.map origD) := by
  induction rs with
  | nil => rfl
  | cons r t ih =>
    have hr := h r (by simp)
    rw [List.mapM_cons]
    cases hh : r.historical_checksums with
    | nil => exact absurd hh hr
    | cons c rest =>
      have horig : origOf r = .ok c := by simp [origOf, hh]
      have horigD : origD r = c := by simp [origD, hh]
      rw [ih (fun x hx => h x (by simp [hx]))]
      simp only [horig, horigD]
      simp [Bind.bind, Except.bind, pure, Except.pure, horigD]

theorem removeOrphanEntries_ok (pol : String) (orc : String → Bool)
    (hpol : pol = "true" ∨ pol = "false" ∨ pol = "ask") :
    ∀ (os : List String) (m : List (String × Resource)),
    ∃ m2, removeOrphanEntries pol orc os m = .ok m2 := by
  intro os
  induction os with
  | nil => exact fun m => ⟨m, rfl⟩
  | cons o rest ih =>
    intro m
    have hdec : ∃ b, orphanDecision pol orc o = .ok b := by
      rcases hpol with h | h | h <;> simp [orphanDecision, h]
    obtain ⟨b, hb⟩ := hdec
    obtain ⟨m2, hm2⟩ := ih (if b then swapRemoveKey m o else m)
    refine ⟨m2, ?_⟩
    unfold removeOrphanEntries at hm2 ⊢
    simp only [List.foldlM_cons, hb, Except.map]
    exact hm2

theorem removeOrphanEntries_keep (pol : String) (orc : String → Bool)
    {os : List String} {m : List (String × Resource)}
    (h : ∀ o ∈ os, orphanDecision pol orc o = .ok false) :
    removeOrphanEntries pol orc os m = .ok m := by
  induction os generalizing m with
  | nil => rfl
  | cons o rest ih =>
    have hb := h o (by simp)
    unfold removeOrphanEntries at ih ⊢
    simp only [List.foldlM_cons, hb, Except.map]
    exact ih (fun x hx => h x (by simp [hx]))

theorem sortByCmp_singleton {α : Type} (cmp : α → α → Ordering) (x : α) :
    sortByCmp cmp [x] = [x] := rfl

/-! ## Code order vs. spec order (for C8) -/

theorem ne_gt_iff {o : Ordering} : o ≠ .gt ↔ (o = .lt ∨ o = .eq) := by
  cases o <;> simp

theorem cmpOptInt_lt_iff {o1 o2 : Option Int} :
    cmpOpt cmpInt o1 o2 = .lt ↔ specOptLt (fun x y : Int => x < y) o1 o2 := by
  cases o1 <;> cases o2 <;> simp [cmpOpt, specOptLt, cmpInt_lt_iff]

theorem cmpOptInt_eq_iff {o1 o2 : Option Int} :
    cmpOpt cmpInt o1 o2 = .eq ↔ o1 = o2 :=
  cmpOpt_eq_iff (fun _ _ => cmpInt_eq_iff)

theorem cmpDateTime_lt_iff {a b : RDateTime} :
    cmpDateTime a b = .lt ↔ specDateLt a b := by
  unfold cmpDateTime specDateLt
  simp only [thenCmp, then_eq_lt, then_eq_eq, cmpOptInt_lt_iff, cmpOptInt_eq_iff]

theorem cmpDateTime_eq_iff {a b : RDateTime} :
    cmpDateTime a b = .eq ↔ a = b := by
  unfold cmpDateTime
  simp only [thenCmp, then_eq_eq, cmpOptInt_eq_iff]
  cases a
  cases b
  simp [RDateTime.mk.injEq, and_assoc]

theorem cmpOptDT_lt_iff {o1 o2 : Option RDateTime} :
    cmpOpt cmpDateTime o1 o2 = .lt ↔ specOptLt specDateLt o1 o2 := by
  cases o1 <;> cases o2 <;> simp [cmpOpt, specOptLt, cmpDateTime_lt_iff]

theorem cmpOptDT_eq_iff {o1 o2 : Option RDateTime} :
    cmpOpt cmpDateTime o1 o2 = .eq ↔ o1 = o2 :=
  cmpOpt_eq_iff (fun _ _ => cmpDateTime_eq_iff)

theorem cmpOptStr_lt_iff {o1 o2 : Option String} :
    cmpOpt cmpStr o1 o2 = .lt ↔ specOptLt strLtP o1 o2 := by
  cases o1 <;> cases o2 <;> simp [cmpOpt, specOptLt, cmpStr_lt_iff, strLtP]

theorem cmpOptStr_eq_iff {o1 o2 : Option String} :
    cmpOpt cmpStr o1 o2 = .eq ↔ o1 = o2 :=
  cmpOpt_eq_iff (fun _ _ => cmpStr_eq_iff)

theorem cmpResource_le_iff {a b : Resource} :
    cmpResource a b ≠ .gt ↔ specLeResource a b := by
  rw [ne_gt_iff]
  unfold cmpResource specLeResource
  simp only [thenCmp, then_eq_lt, then_eq_eq, cmpStr_lt_iff, cmpStr_eq_iff,
    cmpOptDT_lt_iff, cmpOptDT_eq_iff, cmpOptStr_lt_iff, cmpOptStr_eq_iff, strLtP]
  tauto

/-! # Claims -/

/-- C4: with the cache enabled, a scanned entry whose cache entry under
its filename has `last_verified ≥` the file's modification time is served
from the cache — the hasher is not invoked (third component `false`) and
the cached digest is returned, the cache unchanged; otherwise (stale
entry or no entry) the digest is recomputed (third component `true`) and
stored with `last_verified` set to the current time. -/
theorem claim_C4 (origs : List String) (now : Nat) (cache : Cache) (e : FsEntry)
    (cd : CacheFields) :
    (alookup cache e.name = some cd → e.mtime ≤ cd.last_verified →
      lookupOrCompute false origs now cache e = (cd.checksum, cache, false)) ∧
    (alookup cache e.name = some cd → cd.last_verified < e.mtime →
      lookupOrCompute false origs now cache e =
        (e.digest, indexInsert cache (if e.name ∈ origs then e.name else e.digest)
          ⟨now, e.digest⟩, true)) ∧
    (alookup cache e.name = none →
      lookupOrCompute false origs now cache e =
        (e.digest, indexInsert cache (if e.name ∈ origs then e.name else e.digest)
          ⟨now, e.digest⟩, true)) := by
  refine ⟨?_, ?_, ?_⟩
  · intro h1 h2
    have h3 : ¬ e.mtime > cd.last_verified := not_lt.mpr h2
    simp [lookupOrCompute, cachedLookup, h1, h3]
  · intro h1 h2
    simp [lookupOrCompute, cachedLookup, h1, h2]
  · intro h1
    simp [lookupOrCompute, cachedLookup, h1]

/-- Witness for C4: a fresh cache entry (`last_verified = 10 ≥ mtime = 5`)
is reused without hashing; a stale entry (`last_verified = 1 < mtime = 5`)
forces recomputation, stored at the current time 9. -/
theorem claim_C4_witness :
    lookupOrCompute false [] 9 [("f", ⟨10, "x"⟩)] ⟨"f", false, 5, "d"⟩
      = ("x", [("f", ⟨10, "x"⟩)], false) ∧
    lookupOrCompute false [] 9 [("f", ⟨1, "x"⟩)] ⟨"f", false, 5, "d"⟩
      = ("d", [("f", ⟨1, "x"⟩), ("d", ⟨9, "d"⟩)], true) := by
  constructor
  · exact (claim_C4 [] 9 [("f", ⟨10, "x"⟩)] ⟨"f", false, 5, "d"⟩ ⟨10, "x"⟩).1
      (by decide) (by decide)
  · have h := (claim_C4 [] 9 [("f", ⟨1, "x"⟩)] ⟨"f", false, 5, "d"⟩ ⟨1, "x"⟩).2.1
      (by decide) (by decide)
    simpa using h

/-- C6: when the digest of a scanned entry is recomputed (the hasher ran,
third component `true`), the new cache entry is keyed by the computed
digest if the filename is not the original digest of any catalog entry
(a brand-new resource), and keyed by the filename otherwise. -/
theorem claim_C6 (disable : Bool) (origs : List String) (now : Nat) (cache : Cache)
    (e : FsEntry)
    (h : (lookupOrCompute disable origs now cache e).2.2 = true) :
    (e.name ∉ origs →
      (lookupOrCompute disable origs now cache e).2.1
        = indexInsert cache e.digest ⟨now, e.digest⟩) ∧
    (e.name ∈ origs →
      (lookupOrCompute disable origs now cache e).2.1
        = indexInsert cache e.name ⟨now, e.digest⟩) := by
  constructor
  · intro hm
    unfold lookupOrCompute at h ⊢
    cases hd : (if disable then none else cachedLookup cache e) with
    | some c => simp [hd] at h
    | none => simp [hd, hm]
  · intro hm
    unfold lookupOrCompute at h ⊢
    cases hd : (if disable then none else cachedLookup cache e) with
    | some c => simp [hd] at h
    | none => simp [hd, hm]

/-- Witness for C6: a brand-new file `n` with digest `d` is cached under
`d`; a catalog-backed file `n` is cached under `n`. -/
theorem claim_C6_witness :
    (lookupOrCompute false [] 9 [] ⟨"n", false, 5, "d"⟩).2.1 = [("d", ⟨9, "d"⟩)] ∧
    (lookupOrCompute false ["n"] 9 [] ⟨"n", false, 5, "d"⟩).2.1 = [("n", ⟨9, "d"⟩)] := by
  constructor
  · have h := (claim_C6 false [] 9 [] ⟨"n", false, 5, "d"⟩ (by decide)).1 (by decide)
    simpa using h
  · have h := (claim_C6 false ["n"] 9 [] ⟨"n", false, 5, "d"⟩ (by decide)).2 (by decide)
    simpa using h

/-- C9 counterexample: the hasher input stream of a file with byte
content `"a"` is identical to that of a directory containing a single
empty file named `"a"` (the directory folds in the relative path `"a"`
and the empty content).  SHA-1 is a function of its input stream, so the
two receive the same digest, refuting the no-ambiguity claim. -/
theorem claim_C9_counterexample :
    sha1FileInput (strBytes "a") = sha1DirInput [("a", FsTree.file [])] := by
  decide

/-- C9 amended: the chunked file hasher feeds exactly the file's bytes,
so a file and a directory produce the same digest precisely when the
file's bytes equal the directory's folded stream of relative paths and
file contents — distinctness of file and directory digests is NOT
guaranteed by the input encoding. -/
theorem claim_C9_amended (c : List Nat) (cs : List (String × FsTree)) :
    sha1FileInput c = sha1DirInput cs ↔ c = childrenHash "" cs := by
  unfold sha1FileInput sha1DirInput
  rw [file_sha1_id]

/-- C10: for a catalog whose entries all have nonempty digest histories
and an orphan policy among `"true"`, `"false"`, `"ask"`, `Catalog::update`
never reaches the unreachable-policy panic and every
`historical_checksums[0]` access is in bounds — the update succeeds. -/
theorem claim_C10 (cat : Catalog) (snap : List (String × String)) (pol : String)
    (orc : String → Bool)
    (hh : ∀ r ∈ cat.resources, r.historical_checksums ≠ [])
    (hpol : pol = "true" ∨ pol = "false" ∨ pol = "ask") :
    ∃ out, Catalog.update cat snap pol orc = .ok out := by
  unfold Catalog.update
  rw [catalogPairs_eq hh]
  obtain ⟨m2, hm2⟩ := removeOrphanEntries_ok pol orc hpol
    (snap.foldl (processOne (buildDocTypes cat.document_types))
      ⟨buildMap (cat.resources.map (fun r => (origD r, r))),
       buildOrphans (cat.resources.map (fun r => (origD r, r))), []⟩).orphans
    (snap.foldl (processOne (buildDocTypes cat.document_types))
      ⟨buildMap (cat.resources.map (fun r => (origD r, r))),
       buildOrphans (cat.resources.map (fun r => (origD r, r))), []⟩).map
  simp only [Bind.bind, Except.bind]
  rw [hm2]
  exact ⟨_, rfl⟩

/-- Witness for C10: a one-entry catalog with the `"ask"` policy (oracle
answering yes) updates without panicking. -/
theorem claim_C10_witness :
    ∃ out, Catalog.update ⟨[], [], [newResource "t" none "d"]⟩ [("d", "n")]
      "ask" (fun _ => true) = .ok out := by
  exact claim_C10 ⟨[], [], [newResource "t" none "d"]⟩ [("d", "n")] "ask"
    (fun _ => true) (by decide) (Or.inr (Or.inr rfl))

/-- C8: whenever `Catalog::update` succeeds, the resulting resource list
is exactly the surviving entries (the map left after orphan removal), up
to order, and it is sorted by the specification's order: title, ties
broken by date, then edition, then version, then volume, each missing
value sorting before present values. -/
theorem claim_C8 (cat : Catalog) (snap : List (String × String)) (pol : String)
    (orc : String → Bool) (cat2 : Catalog) (rens : List (String × String))
    (h : Catalog.update cat snap pol orc = .ok (cat2, rens)) :
    cat2.resources.Pairwise specLeResource ∧
    ∃ pairs m,
      catalogPairs cat.resources = .ok pairs ∧
      removeOrphanEntries pol orc
        (snap.foldl (processOne (buildDocTypes cat.document_types))
          ⟨buildMap pairs, buildOrphans pairs, []⟩).orphans
        (snap.foldl (processOne (buildDocTypes cat.document_types))
          ⟨buildMap pairs, buildOrphans pairs, []⟩).map = .ok m ∧
      List.Perm cat2.resources (m.map (·.2)) := by
  unfold Catalog.update at h
  cases hp : catalogPairs cat.resources with
  | error e =>
    rw [hp] at h
    simp [Bind.bind, Except.bind] at h
  | ok pairs =>
    rw [hp] at h
    simp only [Bind.bind, Except.bind] at h
    cases hm : removeOrphanEntries pol orc
        (snap.foldl (processOne (buildDocTypes cat.document_types))
          ⟨buildMap pairs, buildOrphans pairs, []⟩).orphans
        (snap.foldl (processOne (buildDocTypes cat.document_types))
          ⟨buildMap pairs, buildOrphans pairs, []⟩).map with
    | error e =>
      rw [hm] at h
      simp at h
    | ok m =>
      rw [hm] at h
      simp only [pure, Except.pure, Except.ok.injEq, Prod.mk.injEq] at h
      obtain ⟨hcat, hrens⟩ := h
      have hres : cat2.resources = sortByCmp cmpResource (m.map (·.2)) := by
        rw [← hcat]
      constructor
      · rw [hres]
        exact (sortByCmp_pairwise cmpResource_lawful (m.map (·.2))).imp
          (fun hab => cmpResource_le_iff.mp hab)
      · exact ⟨pairs, m, rfl, hm, by rw [hres]; exact sortByCmp_perm _ _⟩

/-- Witness for C8: updating an empty catalog with one new resource
yields a singleton, trivially sorted, list that survives orphan
removal. -/
theorem claim_C8_witness :
    (Catalog.resources ⟨[], [], [newResource "n" none "d"]⟩).Pairwise specLeResource ∧
    ∃ pairs m,
      catalogPairs (Catalog.resources ⟨[], [], []⟩) = .ok pairs ∧
      removeOrphanEntries "false" (fun _ => false)
        (([("d", "n")]).foldl (processOne (buildDocTypes []))
          ⟨buildMap pairs, buildOrphans pairs, []⟩).orphans
        (([("d", "n")]).foldl (processOne (buildDocTypes []))
          ⟨buildMap pairs, buildOrphans pairs, []⟩).map = .ok m ∧
      List.Perm (Catalog.resources ⟨[], [], [newResource "n" none "d"]⟩) (m.map (·.2)) := by
  exact claim_C8 ⟨[], [], []⟩ [("d", "n")] "false" (fun _ => false)
    ⟨[], [], [newResource "n" none "d"]⟩ [("n", "d")] (by rfl)

/-- C2 counterexample: a cataloged resource file named `abc123` (its
original digest) edited in place so that its digest becomes `def456` is
NOT renamed by the next run: the run performs zero renames and the file
keeps the name `abc123` (the catalog entry does get history
`[abc123, def456]` and checksum `def456`).  This refutes the claim that
the file is renamed to `def456` — the rename only happens for files that
match no catalog entry. -/
theorem claim_C2_counterexample :
    okOf (librarian_catalog 50 false "false" (fun _ => false)
      ⟨[], [], [newResource "report" none "abc123"]⟩ []
      [⟨"abc123", false, 10, "def456"⟩])
    = some ⟨⟨[], [], [{ newResource "report" none "abc123" with
          checksum := "def456", historical_checksums := ["abc123", "def456"] }]⟩,
        [("abc123", ⟨50, "def456"⟩)], [], [],
        [⟨"abc123", false, 10, "def456"⟩]⟩ := by
  rfl

/-- C2 amended: if a cataloged resource whose on-disk file is named
after its original digest `a` is edited in place so its digest becomes
`d` (different from the entry's current checksum), then the next run
performs NO rename — the file keeps the name `a` — while the catalog
entry keeps original digest `a`, has the new digest appended to its
history, and has current checksum `d`; the (empty) cache gains the entry
for filename `a`. -/
theorem claim_C2_amended (now mt : Nat) (dts : List (String × DocumentType))
    (cts : List (String × String)) (r : Resource) (a d : String) (b : Bool)
    (pol : String) (orc : String → Bool)
    (hhist : r.historical_checksums.head? = some a)
    (hne : r.checksum ≠ d) :
    librarian_catalog now false pol orc ⟨dts, cts, [r]⟩ []
      [⟨a, b, mt, d⟩]
      = .ok ⟨⟨sortKeys dts, sortKeys cts,
          [{ r with historical_checksums := r.historical_checksums ++ [d],
                    checksum := d }]⟩,
        [(a, ⟨now, d⟩)], [], [], [⟨a, b, mt, d⟩]⟩ ∧
    ({ r with historical_checksums := r.historical_checksums ++ [d],
              checksum := d } : Resource).historical_checksums.head? = some a := by
  obtain ⟨tl, htl⟩ : ∃ tl, r.historical_checksums = a :: tl := by
    cases hcs : r.historical_checksums with
    | nil =>
      rw [hcs] at hhist
      exact absurd hhist (by simp)
    | cons x t =>
      rw [hcs] at hhist
      simp only [List.head?_cons, Option.some.injEq] at hhist
      exact ⟨t, by rw [hhist]⟩
  have hoD : origD r = a := by simp [origD, htl]
  constructor
  · unfold librarian_catalog
    rw [@mapM_origOf_eq [r] (by
      intro r2 h2
      simp only [List.mem_singleton] at h2
      subst h2
      rw [htl]
      simp)]
    simp only [Bind.bind, Except.bind, List.map_cons, List.map_nil, hoD]
    simp only [List.foldl_cons, List.foldl_nil, scanStep, lookupOrCompute,
      cachedLookup, alookup, swapRemoveKey, splitAtKey, Bool.false_eq_true,
      if_false, Option.isSome, List.mem_singleton, List.mem_cons,
      List.not_mem_nil, or_false, if_pos rfl]
    unfold Catalog.update
    rw [@catalogPairs_eq [r] (by
      intro r2 h2
      simp only [List.mem_singleton] at h2
      subst h2
      rw [htl]
      simp)]
    simp only [Bind.bind, Except.bind, List.map_cons, List.map_nil, hoD]
    simp only [List.foldl_cons, List.foldl_nil, buildMap, buildOrphans,
      insertSet, indexInsert, List.not_mem_nil, if_false, removeOrphanEntries]
    have hp1 : processOne (buildDocTypes dts) ⟨[(a, r)], [a], []⟩ (d, a)
        = ⟨[(a, { r with historical_checksums := r.historical_checksums ++ [d],
                         checksum := d })], [], []⟩ := by
      simp [processOne, alookup, updateValue, eraseStr, hne]
    simp only [List.nil_append, List.foldl_cons, List.foldl_nil]
    rw [hp1]
    simp [pure, Except.pure, sortKeys, sortByCmp, insertCmp, applyRenames, alookup]
  · simp only [htl]
    simp

/-- Witness for the amended C2 at a concrete catalog. -/
theorem claim_C2_amended_witness :
    librarian_catalog 7 false "true" (fun _ => false)
      ⟨[], [], [newResource "t" none "abc"]⟩ [] [⟨"abc", false, 3, "def"⟩]
      = .ok ⟨⟨[], [], [{ newResource "t" none "abc" with
            historical_checksums := ["abc", "def"], checksum := "def" }]⟩,
        [("abc", ⟨7, "def"⟩)], [], [], [⟨"abc", false, 3, "def"⟩]⟩ ∧
    ({ newResource "t" none "abc" with
        historical_checksums := ["abc", "def"]
        checksum := "def" } : Resource).historical_checksums.head? = some "abc" := by
  have h := claim_C2_amended 7 3 [] [] (newResource "t" none "abc") "abc" "def" false
    "true" (fun _ => false) (by decide) (by decide)
  simpa [sortKeys, sortByCmp, newResource] using h

/-! ## Scan-fold lemmas -/

theorem mem_akeys_indexInsert {α : Type} {m : List (String × α)} {q k : String} {v : α}
    (h : k ∈ akeys (indexInsert m q v)) : k ∈ akeys m ∨ k = q := by
  by_cases hq : q ∈ akeys m
  · rw [akeys_indexInsert_mem hq] at h
    exact Or.inl h
  · rw [akeys_indexInsert_not_mem hq] at h
    rcases List.mem_append.mp h with h | h
    · exact Or.inl h
    · exact Or.inr (by simpa using h)

theorem scan_cache_nodup {origs : List String} {dis : Bool} {now : Nat}
    {fs : List FsEntry} {s0 : ScanState} (h : (akeys s0.cache).Nodup) :
    (akeys (fs.foldl (scanStep origs dis now) s0).cache).Nodup := by
  induction fs generalizing s0 with
  | nil => exact h
  | cons e rest ih =>
    rw [List.foldl_cons]
    apply ih
    unfold scanStep lookupOrCompute
    cases hd : (if dis then none else cachedLookup s0.cache e) with
    | some c =>
      simp only [hd]
      by_cases hdup : (alookup s0.resources c).isSome <;> simp [hdup, h]
    | none =>
      simp only [hd]
      by_cases hdup : (alookup s0.resources e.digest).isSome <;>
        simp [hdup, indexInsert_nodup h]

theorem scan_cache_keys {origs : List String} {dis : Bool} {now : Nat}
    {fs : List FsEntry} {s0 : ScanState} {k : String}
    (h : k ∈ akeys (fs.foldl (scanStep origs dis now) s0).cache) :
    k ∈ akeys s0.cache ∨ k ∈ fs.map (·.name) ∨ k ∈ fs.map (·.digest) := by
  induction fs generalizing s0 with
  | nil => exact Or.inl h
  | cons e rest ih =>
    rw [List.foldl_cons] at h
    rcases ih h with h1 | h1 | h1
    · unfold scanStep lookupOrCompute at h1
      cases hd : (if dis then none else cachedLookup s0.cache e) with
      | some c =>
        simp only [hd] at h1
        by_cases hdup : (alookup s0.resources c).isSome = true
        · simp only [hdup, ite_true] at h1
          exact Or.inl h1
        · simp only [hdup, ite_false] at h1
          exact Or.inl h1
      | none =>
        simp only [hd] at h1
        by_cases hdup : (alookup s0.resources e.digest).isSome = true
        · simp only [hdup, ite_true] at h1
          rcases mem_akeys_indexInsert h1 with h2 | h2
          · exact Or.inl h2
          · by_cases hm : e.name ∈ origs
            · rw [if_pos hm] at h2
              exact Or.inr (Or.inl (by simp [h2]))
            · rw [if_neg hm] at h2
              exact Or.inr (Or.inr (by simp [h2]))
        · simp only [hdup, ite_false] at h1
          rcases mem_akeys_indexInsert h1 with h2 | h2
          · exact Or.inl h2
          · by_cases hm : e.name ∈ origs
            · rw [if_pos hm] at h2
              exact Or.inr (Or.inl (by simp [h2]))
            · rw [if_neg hm] at h2
              exact Or.inr (Or.inr (by simp [h2]))
    · exact Or.inr (Or.inl (by simp [h1]))
    · exact Or.inr (Or.inr (by simp [h1]))

theorem scan_orphans_keep {origs : List String} {dis : Bool} {now : Nat}
    {fs : List FsEntry} {s0 : ScanState} {k : String} {v : CacheFields}
    (hk : (k, v) ∈ s0.orphans) (hn : k ∉ fs.map (·.name)) :
    (k, v) ∈ (fs.foldl (scanStep origs dis now) s0).orphans := by
  induction fs generalizing s0 with
  | nil => exact hk
  | cons e rest ih =>
    simp only [List.map_cons, List.mem_cons] at hn
    push_neg at hn
    rw [List.foldl_cons]
    apply ih _ hn.2
    have hstep : (scanStep origs dis now s0 e).orphans = swapRemoveKey s0.orphans e.name := by
      unfold scanStep
      cases hd : lookupOrCompute dis origs now s0.cache e with
      | mk sha rest2 =>
        by_cases hdup : (alookup s0.resources sha).isSome <;> simp [hdup]
    rw [hstep]
    exact mem_swapRemoveKey_of_ne hk hn.1

theorem scan_orphans_sub {origs : List String} {dis : Bool} {now : Nat}
    {fs : List FsEntry} {s0 : ScanState} {p : String × CacheFields}
    (h : p ∈ (fs.foldl (scanStep origs dis now) s0).orphans) : p ∈ s0.orphans := by
  induction fs generalizing s0 with
  | nil => exact h
  | cons e rest ih =>
    rw [List.foldl_cons] at h
    have h2 := ih h
    have hstep : (scanStep origs dis now s0 e).orphans = swapRemoveKey s0.orphans e.name := by
      unfold scanStep
      cases hd : lookupOrCompute dis origs now s0.cache e with
      | mk sha rest2 =>
        by_cases hdup : (alookup s0.resources sha).isSome <;> simp [hdup]
    rw [hstep] at h2
    exact mem_of_mem_swapRemoveKey h2

/-- Destructuring a successful run: the persisted cache is the sorted,
orphan-pruned scan cache. -/
theorem run_cache_eq {now : Nat} {dis : Bool} {pol : String} {orc : String → Bool}
    {cat : Catalog} {cache : Cache} {fs : List FsEntry} {r : RunResult}
    (h : librarian_catalog now dis pol orc cat cache fs = .ok r) :
    ∃ origs, cat.resources.mapM origOf = .ok origs ∧
      r.cache = sortKeys
        ((fs.foldl (scanStep origs dis now) ⟨cache, cache, [], []⟩).orphans.foldl
          (fun c o => swapRemoveKey c o.1)
          (fs.foldl (scanStep origs dis now) ⟨cache, cache, [], []⟩).cache) := by
  unfold librarian_catalog at h
  cases ho : cat.resources.mapM origOf with
  | error e =>
    rw [ho] at h
    simp [Bind.bind, Except.bind] at h
  | ok origs =>
    rw [ho] at h
    simp only [Bind.bind, Except.bind] at h
    cases hu : Catalog.update cat
        (fs.foldl (scanStep origs dis now) ⟨cache, cache, [], []⟩).resources pol orc with
    | error e =>
      rw [hu] at h
      simp at h
    | ok upd =>
      rw [hu] at h
      simp only [pure, Except.pure, Except.ok.injEq] at h
      exact ⟨origs, rfl, by rw [← h]⟩

/-- C7 counterexample: starting from a cache holding a stale entry for
file `f` (not catalog-backed), the run recomputes digest `d`, stores the
new cache entry under `d`, renames the file to `d` — and the persisted
cache still contains the key `f`, although no entry named `f` exists in
the resources directory at the end of the run. -/
theorem claim_C7_counterexample :
    (okOf (librarian_catalog 9 false "false" (fun _ => false) ⟨[], [], []⟩
      [("f", ⟨1, "x"⟩)] [⟨"f", false, 5, "d"⟩])).map
      (fun r => (akeys r.cache, r.fs.map (·.name)))
    = some (["d", "f"], ["d"]) := by
  rfl

/-- C7 amended: after a run, every key remaining in the persisted cache
is either the filename of an entry seen during the scan or a digest
computed during the run (a renamed file can therefore leave a stale key
behind); and every pre-existing cache key whose filename was not seen in
the scan has been removed. -/
theorem claim_C7_amended (now : Nat) (dis : Bool) (pol : String) (orc : String → Bool)
    (cat : Catalog) (cache : Cache) (fs : List FsEntry) (r : RunResult)
    (hnd : (akeys cache).Nodup)
    (h : librarian_catalog now dis pol orc cat cache fs = .ok r) :
    (∀ k ∈ akeys r.cache, k ∈ fs.map (·.name) ∨ k ∈ fs.map (·.digest)) ∧
    (∀ k ∈ akeys cache, k ∉ fs.map (·.name) → k ∉ akeys r.cache) := by
  obtain ⟨origs, ho, hc⟩ := run_cache_eq h
  have hsnodup : (akeys ((fs.foldl (scanStep origs dis now)
      ⟨cache, cache, [], []⟩)).cache).Nodup :=
    scan_cache_nodup hnd
  have hkeys : ∀ k, k ∈ akeys r.cache ↔
      k ∈ akeys ((fs.foldl (scanStep origs dis now)
        ⟨cache, cache, [], []⟩).orphans.foldl (fun c o => swapRemoveKey c o.1)
        (fs.foldl (scanStep origs dis now) ⟨cache, cache, [], []⟩).cache) := by
    intro k
    rw [hc]
    unfold sortKeys
    exact ((sortByCmp_perm cmpKey _).map Prod.fst).mem_iff
  constructor
  · intro k hk
    rw [hkeys] at hk
    obtain ⟨hk1, hk2⟩ := (mem_akeys_foldl_swapRemove hsnodup).mp hk
    rcases scan_cache_keys hk1 with h1 | h1 | h1
    · by_cases hn : k ∈ fs.map (·.name)
      · exact Or.inl hn
      · exfalso
        obtain ⟨v, hv⟩ := mem_akeys_iff.mp h1
        have horph : (k, v) ∈ (fs.foldl (scanStep origs dis now)
            ⟨cache, cache, [], []⟩).orphans :=
          scan_orphans_keep hv hn
        exact hk2 (List.mem_map.mpr ⟨(k, v), horph, rfl⟩)
    · exact Or.inl h1
    · exact Or.inr h1
  · intro k hk hn hcon
    rw [hkeys] at hcon
    obtain ⟨hk1, hk2⟩ := (mem_akeys_foldl_swapRemove hsnodup).mp hcon
    obtain ⟨v, hv⟩ := mem_akeys_iff.mp hk
    have horph : (k, v) ∈ (fs.foldl (scanStep origs dis now)
        ⟨cache, cache, [], []⟩).orphans :=
      scan_orphans_keep hv hn
    exact hk2 (List.mem_map.mpr ⟨(k, v), horph, rfl⟩)

/-- Witness for the amended C7: a cache-hit run keeping one key, which
is a scanned filename. -/
theorem claim_C7_amended_witness :
    (∀ k ∈ akeys ([("n", ⟨9, "x"⟩)] : Cache),
      k ∈ ([⟨"n", false, 5, "d"⟩] : List FsEntry).map (·.name) ∨
      k ∈ ([⟨"n", false, 5, "d"⟩] : List FsEntry).map (·.digest)) ∧
    (∀ k ∈ akeys ([("n", ⟨9, "x"⟩)] : Cache),
      k ∉ ([⟨"n", false, 5, "d"⟩] : List FsEntry).map (·.name) →
      k ∉ akeys ([("n", ⟨9, "x"⟩)] : Cache)) := by
  exact claim_C7_amended 20 false "false" (fun _ => false) ⟨[], [], []⟩
    [("n", ⟨9, "x"⟩)] [⟨"n", false, 5, "d"⟩]
    ⟨⟨[], [], [{ newResource "n" none "x" with checksum := "x" }]⟩,
      [("n", ⟨9, "x"⟩)], [("n", "x")], [], [⟨"x", false, 5, "d"⟩]⟩
    (by decide) (by rfl)

/-! ## `Catalog::update` fold invariants (for C3 and C5) -/

theorem alookup_isSome_iff {α : Type} {m : List (String × α)} {k : String} :
    (alookup m k).isSome = true ↔ k ∈ akeys m := by
  cases h : alookup m k with
  | none =>
    simp only [Option.isSome]
    rw [alookup_eq_none_iff] at h
    simp [h]
  | some v =>
    simp only [Option.isSome]
    constructor
    · intro _
      exact mem_akeys_iff.mpr ⟨v, alookup_mem h⟩
    · intro _
      trivial

theorem mem_updateValue {α : Type} {m : List (String × α)} {k : String} {f : α → α}
    {p : String × α} (h : p ∈ updateValue m k f) :
    p ∈ m ∨ ∃ v, p = (k, f v) ∧ (k, v) ∈ m := by
  induction m with
  | nil => simp [updateValue] at h
  | cons q t ih =>
    obtain ⟨k1, v1⟩ := q
    unfold updateValue at h
    by_cases hk : k1 = k
    · rw [if_pos hk] at h
      rcases List.mem_cons.mp h with h | h
      · subst hk
        exact Or.inr ⟨v1, h, by simp⟩
      · exact Or.inl (List.mem_cons_of_mem _ h)
    · rw [if_neg hk] at h
      rcases List.mem_cons.mp h with h | h
      · exact Or.inl (h ▸ List.mem_cons_self _ _)
      · rcases ih h with h2 | ⟨v, hv1, hv2⟩
        · exact Or.inl (List.mem_cons_of_mem _ h2)
        · exact Or.inr ⟨v, hv1, List.mem_cons_of_mem _ hv2⟩

theorem mem_indexInsert {α : Type} {m : List (String × α)} {k : String} {v : α}
    {p : String × α} (h : p ∈ indexInsert m k v) : p ∈ m ∨ p = (k, v) := by
  induction m with
  | nil => simpa [indexInsert] using h
  | cons q t ih =>
    obtain ⟨k1, v1⟩ := q
    unfold indexInsert at h
    by_cases hk : k1 = k
    · rw [if_pos hk] at h
      rcases List.mem_cons.mp h with h | h
      · exact Or.inr h
      · exact Or.inl (List.mem_cons_of_mem _ h)
    · rw [if_neg hk] at h
      rcases List.mem_cons.mp h with h | h
      · exact Or.inl (h ▸ List.mem_cons_self _ _)
      · rcases ih h with h2 | h2
        · exact Or.inl (List.mem_cons_of_mem _ h2)
        · exact Or.inr h2

/-- The entry-wise well-formedness carried through `Catalog::update`:
nonempty history whose last element is the current checksum and whose
first element is the map key (the original digest). -/
def EntryInv (p : String × Resource) : Prop :=
  p.2.historical_checksums ≠ [] ∧
  p.2.historical_checksums.getLast? = some p.2.checksum ∧
  p.2.historical_checksums.head? = some p.1

theorem processOne_map_nodup {docTypes : List (String × String)} {st : UpdState}
    {item : String × String} (h : (akeys st.map).Nodup) :
    (akeys (processOne docTypes st item).map).Nodup := by
  cases hl : alookup st.map item.2 with
  | some r =>
    simp only [processOne, hl]
    simpa [updateValue_akeys] using h
  | none =>
    simp only [processOne, hl]
    exact indexInsert_nodup h

theorem processOne_entryInv {docTypes : List (String × String)} {st : UpdState}
    {item : String × String} (h : ∀ p ∈ st.map, EntryInv p) :
    ∀ p ∈ (processOne docTypes st item).map, EntryInv p := by
  intro p hp
  cases hl : alookup st.map item.2 with
  | some r =>
    simp only [processOne, hl] at hp
    rcases mem_updateValue hp with h2 | ⟨v, hv1, hv2⟩
    · exact h p h2
    · obtain ⟨hne, hlast, hhead⟩ := h (item.2, v) hv2
      subst hv1
      by_cases hc : v.checksum = item.1
      · have hred : (if v.checksum ≠ item.1 then
            { v with checksum := item.1,
                     historical_checksums := v.historical_checksums ++ [item.1] }
          else v) = v := by
          simp [hc]
        unfold EntryInv
        rw [hred]
        exact ⟨hne, hlast, hhead⟩
      · constructor
        · simp [hc]
        constructor
        · simp only [ne_eq, hc, not_false_eq_true, ite_true]
          simp [List.getLast?_concat]
        · simp only [ne_eq, hc, not_false_eq_true, ite_true]
          cases hv : v.historical_checksums with
          | nil => exact absurd hv hne
          | cons x xs =>
            rw [hv] at hhead
            simpa using hhead
  | none =>
    simp only [processOne, hl] at hp
    rcases mem_indexInsert hp with h2 | h2
    · exact h p h2
    · subst h2
      refine ⟨by simp [newResource], ?_, ?_⟩ <;> simp [newResource]

theorem snapFold_map_nodup {docTypes : List (String × String)}
    {snap : List (String × String)} {st : UpdState} (h : (akeys st.map).Nodup) :
    (akeys (snap.foldl (processOne docTypes) st).map).Nodup := by
  induction snap generalizing st with
  | nil => exact h
  | cons item rest ih =>
    rw [List.foldl_cons]
    exact ih (processOne_map_nodup h)

theorem snapFold_entryInv {docTypes : List (String × String)}
    {snap : List (String × String)} {st : UpdState} (h : ∀ p ∈ st.map, EntryInv p) :
    ∀ p ∈ (snap.foldl (processOne docTypes) st).map, EntryInv p := by
  induction snap generalizing st with
  | nil => exact h
  | cons item rest ih =>
    rw [List.foldl_cons]
    exact ih (processOne_entryInv h)

theorem snapFold_extends {docTypes : List (String × String)}
    {snap : List (String × String)} {st : UpdState} {k : String} {v : Resource}
    (h : alookup st.map k = some v) :
    (∃ v2, alookup (snap.foldl (processOne docTypes) st).map k = some v2 ∧
      ∃ t, v.historical_checksums ++ t = v2.historical_checksums) ∨
    (∃ p ∈ snap, p.1 = k) := by
  induction snap generalizing st v with
  | nil => exact Or.inl ⟨v, h, [], by simp⟩
  | cons item rest ih =>
    rw [List.foldl_cons]
    cases hl : alookup st.map item.2 with
    | some r =>
      have hmap : (processOne docTypes st item).map = updateValue st.map item.2
          (fun r => if r.checksum ≠ item.1 then
            { r with checksum := item.1,
                     historical_checksums := r.historical_checksums ++ [item.1] }
          else r) := by
        simp only [processOne, hl]
      by_cases hk : k = item.2
      · have hsome : some r = some v := by
          rw [← hl, ← hk]
          exact h
        have hrv : r = v := Option.some.inj hsome
        have hlk : alookup (processOne docTypes st item).map k =
            some (if v.checksum ≠ item.1 then
              { v with checksum := item.1,
                       historical_checksums := v.historical_checksums ++ [item.1] }
            else v) := by
          rw [hmap, updateValue_alookup, if_pos hk, hl, hrv]
          rfl
        rcases ih hlk with ⟨v2, hv2, t, ht⟩ | h2
        · refine Or.inl ⟨v2, hv2, ?_⟩
          by_cases hc : v.checksum ≠ item.1
          · rw [if_pos hc] at ht
            simp only at ht
            exact ⟨[item.1] ++ t, by rw [← ht]; simp⟩
          · rw [if_neg hc] at ht
            exact ⟨t, ht⟩
        · exact Or.inr (by
            obtain ⟨p, hp, hpk⟩ := h2
            exact ⟨p, List.mem_cons_of_mem _ hp, hpk⟩)
      · have hlk : alookup (processOne docTypes st item).map k = some v := by
          rw [hmap, updateValue_alookup]
          rw [if_neg hk]
          exact h
        rcases ih hlk with h2 | h2
        · exact Or.inl h2
        · exact Or.inr (by
            obtain ⟨p, hp, hpk⟩ := h2
            exact ⟨p, List.mem_cons_of_mem _ hp, hpk⟩)
    | none =>
      have hmap : ∃ fresh, (processOne docTypes st item).map
          = indexInsert st.map item.1 fresh := by
        simp only [processOne, hl]
        exact ⟨_, rfl⟩
      obtain ⟨fresh, hmap⟩ := hmap
      by_cases hk : k = item.1
      · exact Or.inr ⟨item, List.mem_cons_self _ _, hk.symm⟩
      · have hlk : alookup (processOne docTypes st item).map k = some v := by
          rw [hmap, indexInsert_alookup, if_neg hk]
          exact h
        rcases ih hlk with h2 | h2
        · exact Or.inl h2
        · exact Or.inr (by
            obtain ⟨p, hp, hpk⟩ := h2
            exact ⟨p, List.mem_cons_of_mem _ hp, hpk⟩)

theorem removeOrphan_sub {pol : String} {orc : String → Bool} :
    ∀ {os : List String} {m m2 : List (String × Resource)},
    removeOrphanEntries pol orc os m = .ok m2 → ∀ p ∈ m2, p ∈ m := by
  intro os
  induction os with
  | nil =>
    intro m m2 h p hp
    unfold removeOrphanEntries at h
    simp only [List.foldlM_nil, pure, Except.pure, Except.ok.injEq] at h
    exact h ▸ hp
  | cons o rest ih =>
    intro m m2 h p hp
    unfold removeOrphanEntries at h
    rw [List.foldlM_cons] at h
    cases hd : orphanDecision pol orc o with
    | error e =>
      rw [hd] at h
      simp [Except.map, Bind.bind, Except.bind] at h
    | ok b =>
      rw [hd] at h
      simp only [Except.map, Bind.bind, Except.bind] at h
      cases b with
      | true =>
        rw [if_pos rfl] at h
        exact mem_of_mem_swapRemoveKey (ih h p hp)
      | false =>
        rw [if_neg (by simp)] at h
        exact ih h p hp

theorem removeOrphan_nodup {pol : String} {orc : String → Bool} :
    ∀ {os : List String} {m m2 : List (String × Resource)},
    removeOrphanEntries pol orc os m = .ok m2 → (akeys m).Nodup →
    (akeys m2).Nodup := by
  intro os
  induction os with
  | nil =>
    intro m m2 h hnd
    unfold removeOrphanEntries at h
    simp only [List.foldlM_nil, pure, Except.pure, Except.ok.injEq] at h
    exact h ▸ hnd
  | cons o rest ih =>
    intro m m2 h hnd
    unfold removeOrphanEntries at h
    rw [List.foldlM_cons] at h
    cases hd : orphanDecision pol orc o with
    | error e =>
      rw [hd] at h
      simp [Except.map, Bind.bind, Except.bind] at h
    | ok b =>
      rw [hd] at h
      simp only [Except.map, Bind.bind, Except.bind] at h
      cases b with
      | true =>
        rw [if_pos rfl] at h
        exact ih h (swapRemoveKey_nodup hnd)
      | false =>
        rw [if_neg (by simp)] at h
        exact ih h hnd

theorem removeOrphan_alookup {pol : String} {orc : String → Bool} :
    ∀ {os : List String} {m m2 : List (String × Resource)} {k : String} {v : Resource},
    removeOrphanEntries pol orc os m = .ok m2 → (akeys m).Nodup →
    alookup m k = some v →
    alookup m2 k = some v ∨ (k ∈ os ∧ orphanDecision pol orc k = .ok true) := by
  intro os
  induction os with
  | nil =>
    intro m m2 k v h hnd hl
    unfold removeOrphanEntries at h
    simp only [List.foldlM_nil, pure, Except.pure, Except.ok.injEq] at h
    exact Or.inl (h ▸ hl)
  | cons o rest ih =>
    intro m m2 k v h hnd hl
    unfold removeOrphanEntries at h
    rw [List.foldlM_cons] at h
    cases hd : orphanDecision pol orc o with
    | error e =>
      rw [hd] at h
      simp [Except.map, Bind.bind, Except.bind] at h
    | ok b =>
      rw [hd] at h
      simp only [Except.map, Bind.bind, Except.bind] at h
      cases b with
      | true =>
        rw [if_pos rfl] at h
        by_cases hk : k = o
        · exact Or.inr ⟨by simp [hk], by rw [hk]; exact hd⟩
        · have hl2 : alookup (swapRemoveKey m o) k = some v := by
            rw [alookup_swapRemoveKey hnd hk]
            exact hl
          rcases ih h (swapRemoveKey_nodup hnd) hl2 with h2 | ⟨h2, h3⟩
          · exact Or.inl h2
          · exact Or.inr ⟨List.mem_cons_of_mem _ h2, h3⟩
      | false =>
        rw [if_neg (by simp)] at h
        rcases ih h hnd hl with h2 | ⟨h2, h3⟩
        · exact Or.inl h2
        · exact Or.inr ⟨List.mem_cons_of_mem _ h2, h3⟩

/-- C5 amended: if every input catalog entry has a nonempty history
whose last element is its checksum and original digests are distinct,
then after a successful `Catalog::update` (i) every output entry has a
nonempty history whose last element equals its current checksum, and
(ii) for every input entry, either some output entry's history extends
the input entry's history (append-only), or the entry's original digest
was condemned by the orphan policy, or some snapshot digest collides
with the entry's original digest (in which case a freshly created entry
silently replaces it — the case the unamended claim misses). -/
theorem claim_C5_amended (cat : Catalog) (snap : List (String × String)) (pol : String)
    (orc : String → Bool) (cat2 : Catalog) (rens : List (String × String))
    (hinv : ∀ r ∈ cat.resources, r.historical_checksums ≠ [] ∧
        r.historical_checksums.getLast? = some r.checksum)
    (hnd : (cat.resources.map origD).Nodup)
    (h : Catalog.update cat snap pol orc = .ok (cat2, rens)) :
    (∀ r2 ∈ cat2.resources, r2.historical_checksums ≠ [] ∧
        r2.historical_checksums.getLast? = some r2.checksum) ∧
    (∀ r1 ∈ cat.resources,
        (∃ r2 ∈ cat2.resources, ∃ t,
            r1.historical_checksums ++ t = r2.historical_checksums) ∨
        orphanDecision pol orc (origD r1) = .ok true ∨
        (∃ p ∈ snap, p.1 = origD r1)) := by
  have hne : ∀ r ∈ cat.resources, r.historical_checksums ≠ [] :=
    fun r hr => (hinv r hr).1
  unfold Catalog.update at h
  rw [catalogPairs_eq hne] at h
  simp only [Bind.bind, Except.bind] at h
  have hpk : (cat.resources.map (fun r => (origD r, r))).map (·.1)
      = cat.resources.map origD := by
    simp
  have hmnd0 : (akeys (cat.resources.map (fun r => (origD r, r)))).Nodup := by
    unfold akeys
    rw [hpk]
    exact hnd
  have hbm : buildMap (cat.resources.map (fun r => (origD r, r)))
      = cat.resources.map (fun r => (origD r, r)) :=
    buildMap_eq (by rw [hpk]; exact hnd)
  cases hro : removeOrphanEntries pol orc
      (snap.foldl (processOne (buildDocTypes cat.document_types))
        ⟨buildMap (cat.resources.map (fun r => (origD r, r))),
         buildOrphans (cat.resources.map (fun r => (origD r, r))), []⟩).orphans
      (snap.foldl (processOne (buildDocTypes cat.document_types))
        ⟨buildMap (cat.resources.map (fun r => (origD r, r))),
         buildOrphans (cat.resources.map (fun r => (origD r, r))), []⟩).map with
  | error e =>
    rw [hro] at h
    simp at h
  | ok m =>
    rw [hro] at h
    simp only [pure, Except.pure, Except.ok.injEq, Prod.mk.injEq] at h
    obtain ⟨hcat, -⟩ := h
    have hres : cat2.resources = sortByCmp cmpResource (m.map (·.2)) := by
      rw [← hcat]
    have hinv0 : ∀ p ∈ buildMap (cat.resources.map (fun r => (origD r, r))),
        EntryInv p := by
      rw [hbm]
      intro p hp
      obtain ⟨r0, hr0, heq⟩ := List.mem_map.mp hp
      subst heq
      obtain ⟨h1, h2⟩ := hinv r0 hr0
      refine ⟨h1, h2, ?_⟩
      cases hh : r0.historical_checksums with
      | nil => exact absurd hh h1
      | cons c t => simp [origD, hh]
    have hstnd : (akeys ((snap.foldl (processOne (buildDocTypes cat.document_types))
        ⟨buildMap (cat.resources.map (fun r => (origD r, r))),
         buildOrphans (cat.resources.map (fun r => (origD r, r))), []⟩)).map).Nodup :=
      snapFold_map_nodup (by rw [hbm]; exact hmnd0)
    have hstinv : ∀ p ∈ (snap.foldl (processOne (buildDocTypes cat.document_types))
        ⟨buildMap (cat.resources.map (fun r => (origD r, r))),
         buildOrphans (cat.resources.map (fun r => (origD r, r))), []⟩).map,
        EntryInv p :=
      snapFold_entryInv hinv0
    have hmsub := removeOrphan_sub hro
    constructor
    · intro r2 hr2
      rw [hres] at hr2
      have hr2m : r2 ∈ m.map (·.2) := (sortByCmp_perm _ _).mem_iff.mp hr2
      obtain ⟨p, hp, hpe⟩ := List.mem_map.mp hr2m
      have hi := hstinv p (hmsub p hp)
      exact hpe ▸ ⟨hi.1, hi.2.1⟩
    · intro r1 hr1
      have hbind : alookup (buildMap (cat.resources.map (fun r => (origD r, r))))
          (origD r1) = some r1 := by
        rw [hbm]
        exact mem_alookup hmnd0 (List.mem_map.mpr ⟨r1, hr1, rfl⟩)
      rcases @snapFold_extends (buildDocTypes cat.document_types) snap
          ⟨buildMap (cat.resources.map (fun r => (origD r, r))),
           buildOrphans (cat.resources.map (fun r => (origD r, r))), []⟩
          (origD r1) r1
          hbind with ⟨v2, hv2, t, ht⟩ | h2
      · rcases removeOrphan_alookup hro hstnd hv2 with h3 | ⟨_, h4⟩
        · refine Or.inl ⟨v2, ?_, t, ht⟩
          rw [hres]
          exact (sortByCmp_perm _ _).mem_iff.mpr
            (List.mem_map.mpr ⟨(origD r1, v2), alookup_mem h3, rfl⟩)
        · exact Or.inr (Or.inl h4)
      · exact Or.inr (Or.inr h2)

/-- C5 counterexample: the catalog holds one entry with original digest
`d`, history `[d, x]` and checksum `x` (its backing file is gone); a new
file `restored` whose content digest is `d` is snapshotted.  With policy
`"false"` nothing is removed as an orphan, yet after the update the only
entry's history is `[d]`: the new entry overwrote the old one under the
same original-digest key, so the old history `[d, x]` is not a prefix of
any surviving history. -/
theorem claim_C5_counterexample :
    (okOf (Catalog.update ⟨[], [],
        [{ newResource "t" none "x" with historical_checksums := ["d", "x"] }]⟩
      [("d", "restored")] "false" (fun _ => false))).map
      (fun o => o.1.resources.map (·.historical_checksums))
    = some [["d"]] ∧
    ¬ ∃ t, ["d", "x"] ++ t = ["d"] := by
  constructor
  · rfl
  · rintro ⟨t, ht⟩
    simp at ht

/-- Witness for the amended C5: an unchanged singleton catalog satisfies
the amended conclusions. -/
theorem claim_C5_amended_witness :
    (∀ r2 ∈ (Catalog.resources ⟨[], [], [newResource "t" none "d"]⟩),
        r2.historical_checksums ≠ [] ∧
        r2.historical_checksums.getLast? = some r2.checksum) ∧
    (∀ r1 ∈ (Catalog.resources ⟨[], [], [newResource "t" none "d"]⟩),
        (∃ r2 ∈ (Catalog.resources ⟨[], [], [newResource "t" none "d"]⟩), ∃ t,
            r1.historical_checksums ++ t = r2.historical_checksums) ∨
        orphanDecision "false" (fun _ => false) (origD r1) = .ok true ∨
        (∃ p ∈ [("d", "d")], p.1 = origD r1)) := by
  exact claim_C5_amended ⟨[], [], [newResource "t" none "d"]⟩ [("d", "d")] "false"
    (fun _ => false) ⟨[], [], [newResource "t" none "d"]⟩ []
    (by decide) (by decide) (by rfl)

/-! ## Scan lemmas with the cache disabled (for C3) -/

theorem scanStep_true (origs : List String) (now : Nat) (s : ScanState) (e : FsEntry) :
    scanStep origs true now s e =
      if (alookup s.resources e.digest).isSome then
        { cache := indexInsert s.cache
            (if e.name ∈ origs then e.name else e.digest) ⟨now, e.digest⟩,
          orphans := swapRemoveKey s.orphans e.name,
          resources := s.resources,
          deletes := s.deletes ++ [(e.name, e.isDir)] }
      else
        { cache := indexInsert s.cache
            (if e.name ∈ origs then e.name else e.digest) ⟨now, e.digest⟩,
          orphans := swapRemoveKey s.orphans e.name,
          resources := s.resources ++ [(e.digest, e.name)],
          deletes := s.deletes } := by
  by_cases hdup : (alookup s.resources e.digest).isSome = true <;>
    simp [scanStep, lookupOrCompute, hdup]

theorem scanT_resources_structure (origs : List String) (now : Nat) :
    ∀ (l : List FsEntry) (s : ScanState),
    ∃ tail, (l.foldl (scanStep origs true now) s).resources = s.resources ++ tail ∧
      ∀ p ∈ tail, ∃ e ∈ l, p = (e.digest, e.name) := by
  intro l
  induction l with
  | nil => exact fun s => ⟨[], by simp, by simp⟩
  | cons e rest ih =>
    intro s
    rw [List.foldl_cons, scanStep_true]
    by_cases hdup : (alookup s.resources e.digest).isSome = true
    · rw [if_pos hdup]
      obtain ⟨tail, h1, h2⟩ := ih
        { cache := indexInsert s.cache
            (if e.name ∈ origs then e.name else e.digest) ⟨now, e.digest⟩,
          orphans := swapRemoveKey s.orphans e.name,
          resources := s.resources,
          deletes := s.deletes ++ [(e.name, e.isDir)] }
      refine ⟨tail, h1, ?_⟩
      intro p hp
      obtain ⟨e2, he2, hpe⟩ := h2 p hp
      exact ⟨e2, List.mem_cons_of_mem _ he2, hpe⟩
    · rw [if_neg hdup]
      obtain ⟨tail, h1, h2⟩ := ih
        { cache := indexInsert s.cache
            (if e.name ∈ origs then e.name else e.digest) ⟨now, e.digest⟩,
          orphans := swapRemoveKey s.orphans e.name,
          resources := s.resources ++ [(e.digest, e.name)],
          deletes := s.deletes }
      refine ⟨(e.digest, e.name) :: tail, by simpa using h1, ?_⟩
      intro p hp
      rcases List.mem_cons.mp hp with hp | hp
      · exact ⟨e, List.mem_cons_self _ _, hp⟩
      · obtain ⟨e2, he2, hpe⟩ := h2 p hp
        exact ⟨e2, List.mem_cons_of_mem _ he2, hpe⟩

theorem scanT_deletes_structure (origs : List String) (now : Nat) :
    ∀ (l : List FsEntry) (s : ScanState),
    ∃ tail, (l.foldl (scanStep origs true now) s).deletes = s.deletes ++ tail ∧
      ∀ p ∈ tail, ∃ e ∈ l, p = (e.name, e.isDir) := by
  intro l
  induction l with
  | nil => exact fun s => ⟨[], by simp, by simp⟩
  | cons e rest ih =>
    intro s
    rw [List.foldl_cons, scanStep_true]
    by_cases hdup : (alookup s.resources e.digest).isSome = true
    · rw [if_pos hdup]
      obtain ⟨tail, h1, h2⟩ := ih
        { cache := indexInsert s.cache
            (if e.name ∈ origs then e.name else e.digest) ⟨now, e.digest⟩,
          orphans := swapRemoveKey s.orphans e.name,
          resources := s.resources,
          deletes := s.deletes ++ [(e.name, e.isDir)] }
      refine ⟨(e.name, e.isDir) :: tail, by simpa using h1, ?_⟩
      intro p hp
      rcases List.mem_cons.mp hp with hp | hp
      · exact ⟨e, List.mem_cons_self _ _, hp⟩
      · obtain ⟨e2, he2, hpe⟩ := h2 p hp
        exact ⟨e2, List.mem_cons_of_mem _ he2, hpe⟩
    · rw [if_neg hdup]
      obtain ⟨tail, h1, h2⟩ := ih
        { cache := indexInsert s.cache
            (if e.name ∈ origs then e.name else e.digest) ⟨now, e.digest⟩,
          orphans := swapRemoveKey s.orphans e.name,
          resources := s.resources ++ [(e.digest, e.name)],
          deletes := s.deletes }
      refine ⟨tail, h1, ?_⟩
      intro p hp
      obtain ⟨e2, he2, hpe⟩ := h2 p hp
      exact ⟨e2, List.mem_cons_of_mem _ he2, hpe⟩

theorem scanT_deletes_mono (origs : List String) (now : Nat) {l : List FsEntry}
    {s : ScanState} {p : String × Bool} (h : p ∈ s.deletes) :
    p ∈ (l.foldl (scanStep origs true now) s).deletes := by
  obtain ⟨tail, h1, -⟩ := scanT_deletes_structure origs now l s
  rw [h1]
  exact List.mem_append.mpr (Or.inl h)

theorem scanT_saturated (origs : List String) (now : Nat) (d : String) :
    ∀ (l : List FsEntry) (s : ScanState), d ∈ akeys s.resources →
    ((l.foldl (scanStep origs true now) s).resources.filter (fun p => p.1 = d)
        = s.resources.filter (fun p => p.1 = d)) ∧
    (∀ e ∈ l, e.digest = d →
        (e.name, e.isDir) ∈ (l.foldl (scanStep origs true now) s).deletes) := by
  intro l
  induction l with
  | nil => exact fun s _ => ⟨rfl, by simp⟩
  | cons e rest ih =>
    intro s hd
    rw [List.foldl_cons, scanStep_true]
    by_cases hdup : (alookup s.resources e.digest).isSome = true
    · rw [if_pos hdup]
      obtain ⟨h1, h2⟩ := ih
        { cache := indexInsert s.cache
            (if e.name ∈ origs then e.name else e.digest) ⟨now, e.digest⟩,
          orphans := swapRemoveKey s.orphans e.name,
          resources := s.resources,
          deletes := s.deletes ++ [(e.name, e.isDir)] } hd
      refine ⟨h1, ?_⟩
      intro e2 he2 hd2
      rcases List.mem_cons.mp he2 with he2 | he2
      · subst he2
        apply scanT_deletes_mono
        simp
      · exact h2 e2 he2 hd2
    · have hed : e.digest ≠ d := by
        intro hc
        rw [alookup_isSome_iff, hc] at hdup
        exact hdup hd
      rw [if_neg hdup]
      obtain ⟨h1, h2⟩ := ih
        { cache := indexInsert s.cache
            (if e.name ∈ origs then e.name else e.digest) ⟨now, e.digest⟩,
          orphans := swapRemoveKey s.orphans e.name,
          resources := s.resources ++ [(e.digest, e.name)],
          deletes := s.deletes }
        (by simp only [akeys_append]; exact List.mem_append.mpr (Or.inl hd))
      constructor
      · rw [h1]
        simp only [List.filter_append]
        have hf : List.filter (fun p => decide (p.1 = d)) [(e.digest, e.name)] = [] := by
          simp [hed]
        rw [hf]
        simp
      · intro e2 he2 hd2
        rcases List.mem_cons.mp he2 with he2 | he2
        · exact absurd (he2 ▸ hd2) hed
        · exact h2 e2 he2 hd2

theorem scanT_fresh (origs : List String) (now : Nat) (d : String) :
    ∀ (l : List FsEntry) (s : ScanState), d ∉ akeys s.resources →
    (∀ e ∈ l, e.digest ≠ d) →
    ((l.foldl (scanStep origs true now) s).resources.filter (fun p => p.1 = d)
        = s.resources.filter (fun p => p.1 = d)) ∧
    d ∉ akeys (l.foldl (scanStep origs true now) s).resources := by
  intro l
  induction l with
  | nil => exact fun s h _ => ⟨rfl, h⟩
  | cons e rest ih =>
    intro s hd hl
    rw [List.foldl_cons, scanStep_true]
    by_cases hdup : (alookup s.resources e.digest).isSome = true
    · rw [if_pos hdup]
      exact ih
        { cache := indexInsert s.cache
            (if e.name ∈ origs then e.name else e.digest) ⟨now, e.digest⟩,
          orphans := swapRemoveKey s.orphans e.name,
          resources := s.resources,
          deletes := s.deletes ++ [(e.name, e.isDir)] } hd
        (fun e2 he2 => hl e2 (List.mem_cons_of_mem _ he2))
    · rw [if_neg hdup]
      have hed : e.digest ≠ d := hl e (List.mem_cons_self _ _)
      obtain ⟨h1, h2⟩ := ih
        { cache := indexInsert s.cache
            (if e.name ∈ origs then e.name else e.digest) ⟨now, e.digest⟩,
          orphans := swapRemoveKey s.orphans e.name,
          resources := s.resources ++ [(e.digest, e.name)],
          deletes := s.deletes }
        (by
          simp only [akeys_append]
          intro hc
          rcases List.mem_append.mp hc with hc | hc
          · exact hd hc
          · have hc2 : d = e.digest := by simpa [akeys] using hc
            exact hed hc2.symm)
        (fun e2 he2 => hl e2 (List.mem_cons_of_mem _ he2))
      constructor
      · rw [h1]
        simp only [List.filter_append]
        have hf : List.filter (fun p => decide (p.1 = d)) [(e.digest, e.name)] = [] := by
          simp [hed]
        rw [hf]
        simp
      · exact h2

theorem scanT_deletes_names (origs : List String) (now : Nat) (nm : String) :
    ∀ (l : List FsEntry) (s : ScanState),
    (∀ e ∈ l, e.name ≠ nm) → (∀ q ∈ s.deletes, q.1 ≠ nm) →
    ∀ q ∈ (l.foldl (scanStep origs true now) s).deletes, q.1 ≠ nm := by
  intro l
  induction l with
  | nil => exact fun s _ h => h
  | cons e rest ih =>
    intro s hl hs
    rw [List.foldl_cons, scanStep_true]
    by_cases hdup : (alookup s.resources e.digest).isSome = true
    · rw [if_pos hdup]
      apply ih _ (fun e2 he2 => hl e2 (List.mem_cons_of_mem _ he2))
      intro q hq
      rcases List.mem_append.mp hq with hq | hq
      · exact hs q hq
      · have hqe : q = (e.name, e.isDir) := by simpa using hq
        rw [hqe]
        exact hl e (List.mem_cons_self _ _)
    · rw [if_neg hdup]
      exact ih _ (fun e2 he2 => hl e2 (List.mem_cons_of_mem _ he2)) hs

/-! ## Key-counting lemmas (for C3) -/

theorem count_akeys_swapRemove {α : Type} {m : List (String × α)} {o d : String}
    (hne : o ≠ d) : (akeys (swapRemoveKey m o)).count d = (akeys m).count d := by
  cases hs : splitAtKey m o with
  | none =>
    rw [swapRemoveKey_not_mem (splitAtKey_eq_none_iff.mp hs)]
  | some trip =>
    obtain ⟨l1, v, l2⟩ := trip
    obtain ⟨hd, -⟩ := splitAtKey_some hs
    have hperm : List.Perm (akeys (swapRemoveKey m o)) (akeys (l1 ++ l2)) :=
      (swapRemoveKey_perm hs).map Prod.fst
    rw [hperm.count_eq, hd, akeys_append, akeys_append]
    simp only [akeys, List.map_cons, List.count_append, List.count_cons]
    have : ¬ (o == d) = true := by simpa using hne
    simp [this]

theorem mem_akeys_processOne {docTypes : List (String × String)} {st : UpdState}
    {item : String × String} {k : String}
    (h : k ∈ akeys (processOne docTypes st item).map) :
    k ∈ akeys st.map ∨ k = item.1 := by
  cases hl : alookup st.map item.2 with
  | some r =>
    simp only [processOne, hl] at h
    rw [updateValue_akeys] at h
    exact Or.inl h
  | none =>
    simp only [processOne, hl] at h
    exact mem_akeys_indexInsert h

theorem snapFold_keys_sub {docTypes : List (String × String)} :
    ∀ {snap : List (String × String)} {st : UpdState} {k : String},
    k ∈ akeys (snap.foldl (processOne docTypes) st).map →
    k ∈ akeys st.map ∨ k ∈ snap.map (·.1) := by
  intro snap
  induction snap with
  | nil => exact fun h => Or.inl h
  | cons item rest ih =>
    intro st k h
    rw [List.foldl_cons] at h
    rcases ih h with h1 | h1
    · rcases mem_akeys_processOne h1 with h2 | h2
      · exact Or.inl h2
      · exact Or.inr (by simp [h2])
    · exact Or.inr (by simp [h1])

theorem snapFold_count_keep {docTypes : List (String × String)} {d : String} :
    ∀ {snap : List (String × String)} {st : UpdState},
    (∀ p ∈ snap, p.1 ≠ d) →
    (akeys (snap.foldl (processOne docTypes) st).map).count d
      = (akeys st.map).count d := by
  intro snap
  induction snap with
  | nil => exact fun _ => rfl
  | cons item rest ih =>
    intro st hne
    rw [List.foldl_cons]
    rw [ih (fun p hp => hne p (List.mem_cons_of_mem _ hp))]
    cases hl : alookup st.map item.2 with
    | some r =>
      simp only [processOne, hl]
      rw [updateValue_akeys]
    | none =>
      simp only [processOne, hl]
      by_cases hk : item.1 ∈ akeys st.map
      · rw [akeys_indexInsert_mem hk]
      · rw [akeys_indexInsert_not_mem hk]
        rw [List.count_append]
        have : ¬ (item.1 == d) = true := by
          simpa using hne item (List.mem_cons_self _ _)
        simp [List.count_cons, this]

theorem snapFold_count_one {docTypes : List (String × String)} {d nm : String}
    {s1 s2 : List (String × String)} {st : UpdState}
    (h1 : ∀ p ∈ s1, p.1 ≠ d) (h2 : ∀ p ∈ s2, p.1 ≠ d)
    (hd : d ∉ akeys st.map) (hnm1 : nm ∉ akeys st.map)
    (hnm2 : ∀ p ∈ s1, p.1 ≠ nm) :
    (akeys ((s1 ++ (d, nm) :: s2).foldl (processOne docTypes) st).map).count d = 1 := by
  rw [List.foldl_append, List.foldl_cons]
  rw [snapFold_count_keep h2]
  have hnm : nm ∉ akeys (s1.foldl (processOne docTypes) st).map := by
    intro hc
    rcases snapFold_keys_sub hc with hc | hc
    · exact hnm1 hc
    · obtain ⟨p, hp, hpe⟩ := List.mem_map.mp hc
      exact hnm2 p hp hpe
  have hdd : d ∉ akeys (s1.foldl (processOne docTypes) st).map := by
    intro hc
    rcases snapFold_keys_sub hc with hc | hc
    · exact hd hc
    · obtain ⟨p, hp, hpe⟩ := List.mem_map.mp hc
      exact h1 p hp hpe
  have hlook : alookup (s1.foldl (processOne docTypes) st).map nm = none :=
    alookup_eq_none_iff.mpr hnm
  simp only [processOne, hlook]
  rw [akeys_indexInsert_not_mem hdd]
  rw [List.count_append]
  rw [List.count_eq_zero.mpr hdd]
  simp

theorem removeOrphan_count {pol : String} {orc : String → Bool} {d : String} :
    ∀ {os : List String} {m m2 : List (String × Resource)},
    removeOrphanEntries pol orc os m = .ok m2 → (∀ o ∈ os, o ≠ d) →
    (akeys m2).count d = (akeys m).count d := by
  intro os
  induction os with
  | nil =>
    intro m m2 h _
    unfold removeOrphanEntries at h
    simp only [List.foldlM_nil, pure, Except.pure, Except.ok.injEq] at h
    rw [h]
  | cons o rest ih =>
    intro m m2 h hne
    unfold removeOrphanEntries at h
    rw [List.foldlM_cons] at h
    cases hdec : orphanDecision pol orc o with
    | error e =>
      rw [hdec] at h
      simp [Except.map, Bind.bind, Except.bind] at h
    | ok b =>
      rw [hdec] at h
      simp only [Except.map, Bind.bind, Except.bind] at h
      cases b with
      | true =>
        rw [if_pos rfl] at h
        rw [ih h (fun o2 ho2 => hne o2 (List.mem_cons_of_mem _ ho2))]
        exact count_akeys_swapRemove (hne o (List.mem_cons_self _ _))
      | false =>
        rw [if_neg (by simp)] at h
        exact ih h (fun o2 ho2 => hne o2 (List.mem_cons_of_mem _ ho2))

theorem updFold_orphans_sub {docTypes : List (String × String)} :
    ∀ {snap : List (String × String)} {st : UpdState} {x : String},
    x ∈ (snap.foldl (processOne docTypes) st).orphans → x ∈ st.orphans := by
  intro snap
  induction snap with
  | nil => exact fun h => h
  | cons item rest ih =>
    intro st x h
    rw [List.foldl_cons] at h
    have h2 := ih h
    cases hl : alookup st.map item.2 with
    | some r =>
      simp only [processOne, hl] at h2
      exact mem_of_mem_eraseStr h2
    | none =>
      simp only [processOne, hl] at h2
      exact h2

theorem mem_buildOrphans_sub {pairs : List (String × Resource)} {x : String}
    (h : x ∈ buildOrphans pairs) : x ∈ pairs.map (·.1) := by
  unfold buildOrphans at h
  suffices hgen : ∀ (l : List (String × Resource)) (acc : List String),
      x ∈ l.foldl (fun s p => insertSet s p.1) acc → x ∈ acc ∨ x ∈ l.map (·.1) by
    rcases hgen pairs [] h with hc | hc
    · simp at hc
    · exact hc
  intro l
  induction l with
  | nil => exact fun acc h2 => Or.inl h2
  | cons p rest ih =>
    intro acc h2
    rw [List.foldl_cons] at h2
    rcases ih _ h2 with hc | hc
    · unfold insertSet at hc
      by_cases hm : p.1 ∈ acc
      · rw [if_pos hm] at hc
        exact Or.inl hc
      · rw [if_neg hm] at hc
        rcases List.mem_append.mp hc with hc | hc
        · exact Or.inl hc
        · exact Or.inr (by simp [(by simpa using hc : x = p.1)])
    · refine Or.inr ?_
      simp only [List.map_cons]
      exact List.mem_cons_of_mem _ hc

theorem countP_head_eq_count_key {m : List (String × Resource)} {d : String}
    (hinv : ∀ p ∈ m, EntryInv p) :
    (m.map (·.2)).countP (fun r => decide (r.historical_checksums.head? = some d))
      = (akeys m).count d := by
  rw [List.countP_map]
  unfold akeys
  rw [List.count_eq_countP, List.countP_map]
  apply List.countP_congr
  intro p hp
  obtain ⟨-, -, hhead⟩ := hinv p hp
  simp only [Function.comp_apply, decide_eq_true_eq, beq_iff_eq]
  rw [hhead]
  simp

/-- Destructuring a successful run into its components. -/
theorem run_components {now : Nat} {dis : Bool} {pol : String} {orc : String → Bool}
    {cat : Catalog} {cache : Cache} {fs : List FsEntry} {r : RunResult}
    (h : librarian_catalog now dis pol orc cat cache fs = .ok r) :
    ∃ origs upd,
      cat.resources.mapM origOf = .ok origs ∧
      Catalog.update cat
        (fs.foldl (scanStep origs dis now) ⟨cache, cache, [], []⟩).resources
        pol orc = .ok upd ∧
      r = ⟨upd.1,
        sortKeys ((fs.foldl (scanStep origs dis now) ⟨cache, cache, [], []⟩).orphans.foldl
          (fun c o => swapRemoveKey c o.1)
          (fs.foldl (scanStep origs dis now) ⟨cache, cache, [], []⟩).cache),
        upd.2,
        (fs.foldl (scanStep origs dis now) ⟨cache, cache, [], []⟩).deletes,
        (fs.filter (fun e =>
          !((fs.foldl (scanStep origs dis now) ⟨cache, cache, [], []⟩).deletes.any
            (fun d2 => decide (d2.1 = e.name))))).map
          (applyRenames upd.2)⟩ := by
  unfold librarian_catalog at h
  cases ho : cat.resources.mapM origOf with
  | error e =>
    rw [ho] at h
    simp [Bind.bind, Except.bind] at h
  | ok origs =>
    rw [ho] at h
    simp only [Bind.bind, Except.bind] at h
    cases hu : Catalog.update cat
        (fs.foldl (scanStep origs dis now) ⟨cache, cache, [], []⟩).resources pol orc with
    | error e =>
      rw [hu] at h
      simp at h
    | ok upd =>
      rw [hu] at h
      simp only [pure, Except.pure, Except.ok.injEq] at h
      exact ⟨origs, upd, rfl, hu, h.symm⟩

theorem applyRenames_digest (rn : List (String × String)) (e : FsEntry) :
    (applyRenames rn e).digest = e.digest := by
  unfold applyRenames
  cases alookup rn e.name <;> rfl

/-- C3: with the cache disabled (every digest computed by the hasher),
if the entries of the resources directory carrying content digest `d`
are `e1` (first) followed by later duplicates, `d` is new content and
`e1`'s name collides with no catalog identity or digest, then the scan
deletes every later duplicate (recording its directory flag for the
recursive delete), the snapshot maps `d` to `e1` only, exactly one
directory entry with digest `d` survives the run, and exactly one
catalog entry with original digest `d` exists afterwards. -/
theorem claim_C3 (now : Nat) (pol : String) (orc : String → Bool) (cat : Catalog)
    (cache : Cache) (fs l1 l2 : List FsEntry) (e1 : FsEntry) (d : String)
    (r : RunResult)
    (hrun : librarian_catalog now true pol orc cat cache fs = .ok r)
    (hsplit : fs = l1 ++ e1 :: l2)
    (hd1 : e1.digest = d)
    (hl1 : ∀ e ∈ l1, e.digest ≠ d)
    (hnames : (fs.map (·.name)).Nodup)
    (hhist : ∀ r0 ∈ cat.resources, r0.historical_checksums ≠ [] ∧
        r0.historical_checksums.getLast? = some r0.checksum)
    (hndorig : (cat.resources.map origD).Nodup)
    (hdfresh : d ∉ cat.resources.map origD)
    (hname1 : e1.name ∉ cat.resources.map origD)
    (hname2 : ∀ e ∈ fs, e1.name ≠ e.digest) :
    (∀ e ∈ l2, e.digest = d → (e.name, e.isDir) ∈ r.deletes) ∧
    (∃ origs, cat.resources.mapM origOf = .ok origs ∧
      (fs.foldl (scanStep origs true now) ⟨cache, cache, [], []⟩).resources.filter
        (fun p => p.1 = d) = [(d, e1.name)]) ∧
    (r.fs.countP (fun e => decide (e.digest = d)) = 1) ∧
    (r.catalog.resources.countP
      (fun r2 => decide (r2.historical_checksums.head? = some d)) = 1) := by
  have hne : ∀ r0 ∈ cat.resources, r0.historical_checksums ≠ [] :=
    fun r0 h0 => (hhist r0 h0).1
  obtain ⟨origs, upd, ho, hu, hr⟩ := run_components hrun
  -- name disjointness facts
  have hnames2 := hnames
  rw [hsplit] at hnames2
  simp only [List.map_append, List.map_cons] at hnames2
  rw [List.nodup_append] at hnames2
  obtain ⟨hnd1, hnd2, hdisj⟩ := hnames2
  rw [List.nodup_cons] at hnd2
  have hnm_l1 : e1.name ∉ l1.map (·.name) := by
    intro hc
    exact hdisj hc (List.mem_cons_self _ _)
  have hnm_l2 : e1.name ∉ l2.map (·.name) := hnd2.1
  -- scan facts
  have hs0res : (⟨cache, cache, [], []⟩ : ScanState).resources = [] := rfl
  obtain ⟨hfil1, hd_not1⟩ := scanT_fresh origs now d l1 ⟨cache, cache, [], []⟩
    (by rw [hs0res]; simp [akeys]) hl1
  have hfold : fs.foldl (scanStep origs true now) ⟨cache, cache, [], []⟩
      = l2.foldl (scanStep origs true now)
        (scanStep origs true now
          (l1.foldl (scanStep origs true now) ⟨cache, cache, [], []⟩) e1) := by
    rw [hsplit, List.foldl_append, List.foldl_cons]
  have hstep1 : scanStep origs true now
      (l1.foldl (scanStep origs true now) ⟨cache, cache, [], []⟩) e1
      = { cache := indexInsert
            (l1.foldl (scanStep origs true now) ⟨cache, cache, [], []⟩).cache
            (if e1.name ∈ origs then e1.name else e1.digest) ⟨now, e1.digest⟩,
          orphans := swapRemoveKey
            (l1.foldl (scanStep origs true now) ⟨cache, cache, [], []⟩).orphans e1.name,
          resources := (l1.foldl (scanStep origs true now)
            ⟨cache, cache, [], []⟩).resources ++ [(e1.digest, e1.name)],
          deletes := (l1.foldl (scanStep origs true now)
            ⟨cache, cache, [], []⟩).deletes } := by
    rw [scanStep_true]
    rw [if_neg (by
      rw [alookup_isSome_iff, hd1]
      exact fun hc => hd_not1 hc)]
  obtain ⟨hfil2, hdel2⟩ := scanT_saturated origs now d l2
    (scanStep origs true now
      (l1.foldl (scanStep origs true now) ⟨cache, cache, [], []⟩) e1)
    (by
      rw [hstep1]
      simp only [akeys_append]
      refine List.mem_append.mpr (Or.inr ?_)
      simp [akeys, hd1])
  -- (b): the snapshot filter
  have hsnapfil : (fs.foldl (scanStep origs true now)
      ⟨cache, cache, [], []⟩).resources.filter (fun p => p.1 = d)
      = [(d, e1.name)] := by
    rw [hfold, hfil2, hstep1]
    simp only [List.filter_append]
    rw [hfil1]
    have hone : List.filter (fun p => decide (p.1 = d)) [(e1.digest, e1.name)]
        = [(d, e1.name)] := by
      simp [hd1]
    rw [hone]
    simp [hs0res]
  -- (a): later duplicates deleted
  have hdel : ∀ e ∈ l2, e.digest = d → (e.name, e.isDir) ∈
      (fs.foldl (scanStep origs true now) ⟨cache, cache, [], []⟩).deletes := by
    intro e he hde
    rw [hfold]
    exact hdel2 e he hde
  -- no delete carries e1's name
  have hkeep1 : ∀ q ∈ (fs.foldl (scanStep origs true now)
      ⟨cache, cache, [], []⟩).deletes, q.1 ≠ e1.name := by
    rw [hfold]
    apply scanT_deletes_names origs now e1.name l2
    · intro e he hc
      exact hnm_l2 (hc ▸ List.mem_map_of_mem (·.name) he)
    · rw [hstep1]
      obtain ⟨dtail, hds, hdnames⟩ := scanT_deletes_structure origs now l1
        ⟨cache, cache, [], []⟩
      rw [hds]
      intro q hq
      have hq2 : q ∈ dtail := by simpa using hq
      obtain ⟨e, he, hqe⟩ := hdnames q hq2
      rw [hqe]
      intro hc
      exact hnm_l1 (hc ▸ List.mem_map_of_mem (·.name) he)
  refine ⟨?_, ⟨origs, ho, hsnapfil⟩, ?_, ?_⟩
  · intro e he hde
    rw [hr]
    exact hdel e he hde
  · -- exactly one surviving directory entry with digest d
    rw [hr]
    show (((fs.filter (fun e =>
        !((fs.foldl (scanStep origs true now) ⟨cache, cache, [], []⟩).deletes.any
          (fun d2 => decide (d2.1 = e.name))))).map
        (applyRenames upd.2)).countP (fun e => decide (e.digest = d))) = 1
    rw [List.countP_map]
    have hfun : ((fun e => decide (e.digest = d)) ∘ applyRenames upd.2)
        = (fun e => decide (e.digest = d)) := by
      funext e
      simp [applyRenames_digest]
    rw [hfun]
    rw [hsplit] at hkeep1 hdel ⊢
    generalize ((l1 ++ e1 :: l2).foldl (scanStep origs true now)
      ⟨cache, cache, [], []⟩).deletes = D at hkeep1 hdel ⊢
    rw [List.filter_append, List.countP_append]
    have hc1 : ((l1.filter (fun e =>
        !(D.any (fun d2 => decide (d2.1 = e.name))))).countP
        (fun e => decide (e.digest = d))) = 0 := by
      apply List.countP_eq_zero.mpr
      intro e he
      simp only [decide_eq_true_eq]
      exact hl1 e (List.mem_filter.mp he).1
    rw [hc1]
    rw [List.filter_cons]
    have hke1 : (!(D.any (fun d2 => decide (d2.1 = e1.name)))) = true := by
      have hfalse : D.any (fun d2 => decide (d2.1 = e1.name)) = false := by
        rw [List.any_eq_false]
        intro q hq
        simp only [decide_eq_true_eq]
        exact hkeep1 q hq
      simp [hfalse]
    rw [if_pos hke1]
    rw [List.countP_cons]
    have hc2 : ((l2.filter (fun e =>
        !(D.any (fun d2 => decide (d2.1 = e.name))))).countP
        (fun e => decide (e.digest = d))) = 0 := by
      apply List.countP_eq_zero.mpr
      intro e he
      obtain ⟨hel2, hke⟩ := List.mem_filter.mp he
      simp only [decide_eq_true_eq]
      intro hed
      have hmem := hdel e hel2 hed
      have hkf : D.any (fun d2 => decide (d2.1 = e.name)) = false := by
        simpa using hke
      rw [List.any_eq_false] at hkf
      have := hkf (e.name, e.isDir) hmem
      simp at this
    rw [hc2]
    simp [hd1]
  · -- exactly one catalog entry with original digest d
    rw [hr]
    show upd.1.resources.countP
      (fun r2 => decide (r2.historical_checksums.head? = some d)) = 1
    obtain ⟨tail, htail, htailmem⟩ := scanT_resources_structure origs now fs
      ⟨cache, cache, [], []⟩
    have hsnapsrc : ∀ p ∈ (fs.foldl (scanStep origs true now)
        ⟨cache, cache, [], []⟩).resources, ∃ e ∈ fs, p = (e.digest, e.name) := by
      intro p hp
      rw [htail] at hp
      exact htailmem p (by simpa using hp)
    generalize hg : (fs.foldl (scanStep origs true now)
      ⟨cache, cache, [], []⟩).resources = snap at hu hsnapfil hsnapsrc
    have hmemd : (d, e1.name) ∈ snap := by
      have h0 : (d, e1.name) ∈ snap.filter (fun p => p.1 = d) := by
        rw [hsnapfil]
        simp
      exact (List.mem_filter.mp h0).1
    have hdk : d ∈ akeys snap := mem_akeys_iff.mpr ⟨e1.name, hmemd⟩
    cases hsp : splitAtKey snap d with
    | none => exact absurd hdk (splitAtKey_eq_none_iff.mp hsp)
    | some trip =>
      obtain ⟨t1, v, t2⟩ := trip
      obtain ⟨hdecomp, hnotin1⟩ := splitAtKey_some hsp
      have h1 : ∀ p ∈ t1, p.1 ≠ d := by
        intro p hp hc
        apply hnotin1
        unfold akeys
        exact hc ▸ List.mem_map_of_mem (·.1) hp
      have hfil_t1 : t1.filter (fun p => p.1 = d) = [] :=
        List.filter_eq_nil_iff.mpr (fun p hp => by simpa using h1 p hp)
      rw [hdecomp, List.filter_append, hfil_t1, List.filter_cons] at hsnapfil
      rw [if_pos (by simp)] at hsnapfil
      simp only [List.nil_append, List.cons.injEq, Prod.mk.injEq] at hsnapfil
      obtain ⟨⟨-, hv⟩, hfil_t2⟩ := hsnapfil
      subst hv
      have h2 : ∀ p ∈ t2, p.1 ≠ d := by
        intro p hp
        have := List.filter_eq_nil_iff.mp hfil_t2 p hp
        simpa using this
      -- destructure the update
      unfold Catalog.update at hu
      rw [catalogPairs_eq hne] at hu
      simp only [Bind.bind, Except.bind] at hu
      have hpk : (cat.resources.map (fun r0 => (origD r0, r0))).map (·.1)
          = cat.resources.map origD := by
        simp
      have hbm : buildMap (cat.resources.map (fun r0 => (origD r0, r0)))
          = cat.resources.map (fun r0 => (origD r0, r0)) :=
        buildMap_eq (by rw [hpk]; exact hndorig)
      cases hro : removeOrphanEntries pol orc
          (snap.foldl (processOne (buildDocTypes cat.document_types))
            ⟨buildMap (cat.resources.map (fun r0 => (origD r0, r0))),
             buildOrphans (cat.resources.map (fun r0 => (origD r0, r0))), []⟩).orphans
          (snap.foldl (processOne (buildDocTypes cat.document_types))
            ⟨buildMap (cat.resources.map (fun r0 => (origD r0, r0))),
             buildOrphans (cat.resources.map (fun r0 => (origD r0, r0))), []⟩).map with
      | error e2 =>
        rw [hro] at hu
        simp at hu
      | ok m =>
        rw [hro] at hu
        simp only [pure, Except.pure, Except.ok.injEq] at hu
        have hres : upd.1.resources = sortByCmp cmpResource (m.map (·.2)) := by
          rw [← hu]
        -- orphans never carry d
        have horph : ∀ o ∈ (snap.foldl (processOne (buildDocTypes cat.document_types))
            ⟨buildMap (cat.resources.map (fun r0 => (origD r0, r0))),
             buildOrphans (cat.resources.map (fun r0 => (origD r0, r0))), []⟩).orphans,
            o ≠ d := by
          intro o hoo hc
          have h3 := updFold_orphans_sub hoo
          have h4 := mem_buildOrphans_sub h3
          rw [hpk] at h4
          exact hdfresh (hc ▸ h4)
        have hd0 : d ∉ akeys (buildMap (cat.resources.map (fun r0 => (origD r0, r0)))) := by
          rw [hbm]
          unfold akeys
          rw [hpk]
          exact hdfresh
        have hnm1d : e1.name ∉ akeys (buildMap
            (cat.resources.map (fun r0 => (origD r0, r0)))) := by
          rw [hbm]
          unfold akeys
          rw [hpk]
          exact hname1
        have hnm2d : ∀ p ∈ t1, p.1 ≠ e1.name := by
          intro p hp hc
          have hps : p ∈ snap := by
            rw [hdecomp]
            exact List.mem_append.mpr (Or.inl hp)
          obtain ⟨e, he, hpe⟩ := hsnapsrc p hps
          have hpd : p.1 = e.digest := by rw [hpe]
          exact hname2 e he (by rw [← hc, hpd])
        have hcnt : (akeys ((snap.foldl (processOne (buildDocTypes cat.document_types))
            ⟨buildMap (cat.resources.map (fun r0 => (origD r0, r0))),
             buildOrphans (cat.resources.map (fun r0 => (origD r0, r0))), []⟩)).map).count d
            = 1 := by
          rw [hdecomp]
          exact snapFold_count_one h1 h2 hd0 hnm1d hnm2d
        have hcnt2 : (akeys m).count d = 1 := by
          rw [removeOrphan_count hro horph]
          exact hcnt
        -- the entry invariant survives into m
        have hinv0 : ∀ p ∈ buildMap (cat.resources.map (fun r0 => (origD r0, r0))),
            EntryInv p := by
          rw [hbm]
          intro p hp
          obtain ⟨r0, hr0, heq⟩ := List.mem_map.mp hp
          subst heq
          obtain ⟨hh1, hh2⟩ := hhist r0 hr0
          refine ⟨hh1, hh2, ?_⟩
          cases hh : r0.historical_checksums with
          | nil => exact absurd hh hh1
          | cons c t => simp [origD, hh]
        have hstinv : ∀ p ∈ (snap.foldl (processOne (buildDocTypes cat.document_types))
            ⟨buildMap (cat.resources.map (fun r0 => (origD r0, r0))),
             buildOrphans (cat.resources.map (fun r0 => (origD r0, r0))), []⟩).map,
            EntryInv p :=
          snapFold_entryInv hinv0
        have hminv : ∀ p ∈ m, EntryInv p :=
          fun p hp => hstinv p (removeOrphan_sub hro p hp)
        rw [hres]
        rw [(sortByCmp_perm cmpResource (m.map (·.2))).countP_eq]
        rw [countP_head_eq_count_key hminv]
        exact hcnt2

/-- Witness for C3: two files `f1` and `f2` with identical digest `d`.
The run deletes the later one `f2` (recursively — it is a directory),
one file with digest `d` survives (renamed to `d`), and exactly one
catalog entry with original digest `d` exists. -/
theorem claim_C3_witness :
    librarian_catalog 100 true "false" (fun _ => false) ⟨[], [], []⟩ []
      [⟨"f1", false, 10, "d"⟩, ⟨"f2", true, 20, "d"⟩] = .ok
        ⟨⟨[], [], [newResource "f1" none "d"]⟩,
         [("d", ⟨100, "d"⟩)], [("f1", "d")], [("f2", true)],
         [⟨"d", false, 10, "d"⟩]⟩ ∧
    (([⟨"d", false, 10, "d"⟩] : List FsEntry).countP
        (fun e => decide (e.digest = "d")) = 1) ∧
    ([newResource "f1" none "d"].countP
        (fun r2 => decide (r2.historical_checksums.head? = some "d")) = 1) := by
  have h := claim_C3 100 "false" (fun _ => false) ⟨[], [], []⟩ []
    [⟨"f1", false, 10, "d"⟩, ⟨"f2", true, 20, "d"⟩] [] [⟨"f2", true, 20, "d"⟩]
    ⟨"f1", false, 10, "d"⟩ "d"
    ⟨⟨[], [], [newResource "f1" none "d"]⟩, [("d", ⟨100, "d"⟩)], [("f1", "d")],
     [("f2", true)], [⟨"d", false, 10, "d"⟩]⟩
    rfl rfl rfl (by simp) (by decide) (by simp) (by simp) (by simp) (by simp)
    (by decide)
  exact ⟨rfl, h.2.2.1, h.2.2.2⟩

/-! ## Steady-state lemmas (for C1) -/

theorem scanFold_steady (origs : List String) (now : Nat) :
    ∀ (l : List FsEntry) (s : ScanState),
    (∀ e ∈ l, cachedLookup s.cache e = some (cachedChecksum s.cache e)) →
    (∀ e ∈ l, cachedChecksum s.cache e ∉ akeys s.resources) →
    (l.map (fun e => cachedChecksum s.cache e)).Nodup →
    l.foldl (scanStep origs false now) s =
      { cache := s.cache,
        orphans := (l.map (·.name)).foldl swapRemoveKey s.orphans,
        resources := s.resources ++ l.map (fun e => (cachedChecksum s.cache e, e.name)),
        deletes := s.deletes } := by
  intro l
  induction l with
  | nil =>
    intro s _ _ _
    cases s
    simp
  | cons e rest ih =>
    intro s h1 h2 h3
    rw [List.foldl_cons]
    have hhit := h1 e (List.mem_cons_self _ _)
    have hlk : alookup s.resources (cachedChecksum s.cache e) = none :=
      alookup_eq_none_iff.mpr (h2 e (List.mem_cons_self _ _))
    have hstep : scanStep origs false now s e =
        { cache := s.cache,
          orphans := swapRemoveKey s.orphans e.name,
          resources := s.resources ++ [(cachedChecksum s.cache e, e.name)],
          deletes := s.deletes } := by
      simp [scanStep, lookupOrCompute, hhit, hlk]
    rw [hstep]
    have h3c : (cachedChecksum s.cache e)
        ∉ rest.map (fun e2 => cachedChecksum s.cache e2) ∧
        (rest.map (fun e2 => cachedChecksum s.cache e2)).Nodup :=
      List.nodup_cons.mp (by simpa using h3)
    rw [ih { cache := s.cache,
             orphans := swapRemoveKey s.orphans e.name,
             resources := s.resources ++ [(cachedChecksum s.cache e, e.name)],
             deletes := s.deletes }
      (fun e2 he2 => h1 e2 (List.mem_cons_of_mem _ he2))
      (by
        intro e2 he2 hc
        rw [akeys_append] at hc
        rcases List.mem_append.mp hc with hc2 | hc2
        · exact h2 e2 (List.mem_cons_of_mem _ he2) hc2
        · have hc3 : cachedChecksum s.cache e2 = cachedChecksum s.cache e := by
            simpa [akeys] using hc2
          exact h3c.1
            (hc3 ▸ List.mem_map_of_mem (fun e3 => cachedChecksum s.cache e3) he2)
      )
      h3c.2]
    simp

theorem updFold_steady (docTypes : List (String × String)) :
    ∀ (snap : List (String × String)) (st : UpdState),
    (∀ item ∈ snap, ∃ r0, alookup st.map item.2 = some r0 ∧ r0.checksum = item.1) →
    snap.foldl (processOne docTypes) st =
      { map := st.map,
        orphans := (snap.map (·.2)).foldl eraseStr st.orphans,
        renames := st.renames } := by
  intro snap
  induction snap with
  | nil =>
    intro st _
    cases st
    simp
  | cons item rest ih =>
    intro st h
    obtain ⟨r0, hl, hc⟩ := h item (List.mem_cons_self _ _)
    rw [List.foldl_cons]
    have hid : updateValue st.map item.2 (fun r =>
        if r.checksum ≠ item.1 then
          { r with historical_checksums := r.historical_checksums ++ [item.1],
                   checksum := item.1 }
        else r) = st.map := by
      apply updateValue_id
      intro v hv
      rw [hl] at hv
      have hv2 : r0 = v := Option.some.inj hv
      rw [← hv2, if_neg (by simp [hc])]
    have hstep : processOne docTypes st item =
        { map := st.map, orphans := eraseStr st.orphans item.2,
          renames := st.renames } := by
      simp only [processOne, hl, hid]
    rw [hstep]
    rw [List.map_cons, List.foldl_cons]
    rw [ih { map := st.map, orphans := eraseStr st.orphans item.2,
             renames := st.renames }
      (fun it hit => h it (List.mem_cons_of_mem _ hit))]

theorem update_steady (cat : Catalog) (cache : Cache) (fs : List FsEntry)
    (pol : String) (orc : String → Bool)
    (ha : ∀ r0 ∈ cat.resources, r0.historical_checksums ≠ [])
    (hb : (cat.resources.map origD).Nodup)
    (hg : ∀ e ∈ fs, ∃ r0 ∈ cat.resources,
        origD r0 = e.name ∧ r0.checksum = cachedChecksum cache e)
    (hh : ∀ r0 ∈ cat.resources, origD r0 ∈ fs.map (·.name))
    (hs2 : sortByCmp cmpResource cat.resources = cat.resources)
    (hs3 : sortKeys cat.document_types = cat.document_types)
    (hs4 : sortKeys cat.content_types = cat.content_types) :
    Catalog.update cat (fs.map (fun e => (cachedChecksum cache e, e.name))) pol orc
      = .ok (cat, []) := by
  unfold Catalog.update
  rw [catalogPairs_eq ha]
  simp only [Bind.bind, Except.bind]
  have hpk : (cat.resources.map (fun r0 => (origD r0, r0))).map (·.1)
      = cat.resources.map origD := by
    simp
  have hbm : buildMap (cat.resources.map (fun r0 => (origD r0, r0)))
      = cat.resources.map (fun r0 => (origD r0, r0)) :=
    buildMap_eq (by rw [hpk]; exact hb)
  have hbo : buildOrphans (cat.resources.map (fun r0 => (origD r0, r0)))
      = (cat.resources.map (fun r0 => (origD r0, r0))).map (·.1) :=
    buildOrphans_eq (by rw [hpk]; exact hb)
  have hcond : ∀ item ∈ fs.map (fun e => (cachedChecksum cache e, e.name)),
      ∃ r0, alookup (buildMap (cat.resources.map (fun r0 => (origD r0, r0)))) item.2
        = some r0 ∧ r0.checksum = item.1 := by
    intro item hitem
    obtain ⟨e, he, heq⟩ := List.mem_map.mp hitem
    subst heq
    obtain ⟨r0, hr0, ho1, ho2⟩ := hg e he
    refine ⟨r0, ?_, ho2⟩
    rw [hbm]
    have hmem : (origD r0, r0) ∈ cat.resources.map (fun r0 => (origD r0, r0)) :=
      List.mem_map.mpr ⟨r0, hr0, rfl⟩
    rw [ho1] at hmem
    exact mem_alookup (by unfold akeys; rw [hpk]; exact hb) hmem
  have hfold := updFold_steady (buildDocTypes cat.document_types)
    (fs.map (fun e => (cachedChecksum cache e, e.name)))
    ⟨buildMap (cat.resources.map (fun r0 => (origD r0, r0))),
     buildOrphans (cat.resources.map (fun r0 => (origD r0, r0))), []⟩ hcond
  simp only [hfold]
  have horph : ((fs.map (fun e => (cachedChecksum cache e, e.name))).map (·.2)).foldl
      eraseStr (buildOrphans (cat.resources.map (fun r0 => (origD r0, r0)))) = [] := by
    rw [hbo]
    have hmap2 : ((fs.map (fun e => (cachedChecksum cache e, e.name))).map (·.2))
        = fs.map (·.name) := by
      simp
    rw [hmap2, hpk]
    rw [List.eq_nil_iff_forall_not_mem]
    intro a hain
    rw [mem_foldl_eraseStr hb] at hain
    obtain ⟨h1, h2⟩ := hain
    obtain ⟨r0, hr0, hre⟩ := List.mem_map.mp h1
    exact h2 (hre ▸ hh r0 hr0)
  simp only [horph]
  have hro : removeOrphanEntries pol orc []
      (buildMap (cat.resources.map (fun r0 => (origD r0, r0))))
      = .ok (buildMap (cat.resources.map (fun r0 => (origD r0, r0)))) := by
    unfold removeOrphanEntries
    rfl
  rw [hro]
  have hmm : (buildMap (cat.resources.map (fun r0 => (origD r0, r0)))).map (·.2)
      = cat.resources := by
    rw [hbm, List.map_map]
    have h0 : ∀ r0 ∈ cat.resources,
        ((fun x => x.2) ∘ fun r0 => (origD r0, r0)) r0 = r0 :=
      fun r0 h2 => rfl
    rw [List.map_congr_left h0, List.map_id']
  simp only [hmm, hs2, hs3, hs4, pure, Except.pure]

/-- C1 (amended): a reconciliation run on a steady state — every file
cache-hits, all digests distinct, names and catalog identities agree,
everything already sorted — is a no-op: it returns the catalog, cache
and directory unchanged and performs zero renames and zero deletes.
Hence a second run repeats the first verbatim whenever the first left a
steady state; the counterexample shows it need not in general. -/
theorem claim_C1_amended (now : Nat) (pol : String) (orc : String → Bool)
    (cat : Catalog) (cache : Cache) (fs : List FsEntry)
    (hst : Steady cat cache fs) :
    librarian_catalog now false pol orc cat cache fs
      = .ok ⟨cat, cache, [], [], fs⟩ := by
  obtain ⟨ha, hb, hc, hd, he, hf, hg, hh, hs1, hs2, hs3, hs4⟩ := hst
  unfold librarian_catalog
  rw [mapM_origOf_eq ha]
  simp only [Bind.bind, Except.bind]
  have hscan := scanFold_steady (cat.resources.map origD) now fs
    ⟨cache, cache, [], []⟩ (fun e he2 => hc e he2)
    (by intro e he2 hcon; simp [akeys] at hcon) hd
  simp only [hscan]
  have horph : (fs.map (·.name)).foldl swapRemoveKey cache = [] :=
    foldl_swapRemove_names_nil he hf
  simp only [horph]
  have hupd := update_steady cat cache fs pol orc ha hb hg hh hs2 hs3 hs4
  simp only [List.nil_append]
  rw [hupd]
  simp only [List.foldl_nil, List.any_nil, Bool.not_false, List.filter_true]
  rw [hs1]
  have hid : ∀ e ∈ fs, applyRenames [] e = id e := fun e _ => rfl
  rw [List.map_congr_left hid, List.map_id]
  rfl

/-- C1 counterexample: catalog entry `d` whose backing file is named
`n` (not yet renamed), cache keyed by digest `d`.  The first run renames
`n` to `d` but prunes its own fresh cache entry (the scan-time key `d`
was still marked orphaned), so the persisted cache is empty; the second
run — with zero filesystem changes in between — must re-hash and writes
a different cache: the two runs' caches are not byte-identical. -/
theorem claim_C1_counterexample :
    ((okOf (librarian_catalog 200 false "false" (fun _ => false)
        ⟨[], [], [newResource "t" none "d"]⟩ [("d", ⟨100, "d"⟩)]
        [⟨"n", false, 50, "d"⟩])).bind (fun r1 =>
      (okOf (librarian_catalog 300 false "false" (fun _ => false)
        r1.catalog r1.cache r1.fs)).map (fun r2 =>
        decide (r2.cache = r1.cache)))) = some false := by
  rfl

/-- Witness for the amended C1: a steady one-file state (file `d`,
cached under `d` with a fresh verification time, cataloged with original
digest `d`) on which the run is verifiably a no-op. -/
theorem claim_C1_amended_witness :
    Steady ⟨[], [], [newResource "t" none "d"]⟩ [("d", ⟨100, "d"⟩)]
      [⟨"d", false, 50, "d"⟩] ∧
    librarian_catalog 500 false "ask" (fun _ => true)
      ⟨[], [], [newResource "t" none "d"]⟩ [("d", ⟨100, "d"⟩)]
      [⟨"d", false, 50, "d"⟩] = .ok
        ⟨⟨[], [], [newResource "t" none "d"]⟩, [("d", ⟨100, "d"⟩)], [], [],
         [⟨"d", false, 50, "d"⟩]⟩ :=
  ⟨by decide, claim_C1_amended 500 "ask" (fun _ => true) _ _ _ (by decide)⟩
